import Mathlib

/-!
# The document outline of wkhtmltopdf (`src/outline.cc`)

A shallow embedding of `OutlineItem`, `OutlinePrivate` and `Outline`.

* Objects created with `new OutlineItem()` live in a store (`Heap`), a list of
  `OutlineItem` records; a pointer is a position in the store, the null pointer
  is `none`.  `new` appends a record, so the fresh pointer is the old length.
* An `int` value is an integer, and the `int` sums of page numbers (lines
  113, 126, 137, 138) are reduced to 32 bits in two's complement by `wrapInt`,
  which is what the compiled code does on overflow; the recursion level of
  `outlineChildren` is an integer that stays far below the limit.  `uint`
  values are naturals below `2^32`.
* A dereference of a null or dangling pointer and `QVector::back()` on an empty
  vector make the modelled function return `none`.
* `outline_p.hh` is not among the sources.  The fields it declares are taken
  from their uses in `outline.cc`; `anchorCounter` is a natural number.
* The constructor (lines 42-44) initialises `settings` only: `pageCount` and
  `anchorCounter` of a new collection hold whatever the memory held, which
  `Outline.construct` takes as parameters.
-/

namespace Wk

/-! ## Collaborators from Qt -/

/-- A `QWebElement`, seen through the calls `outline.cc` makes on it:
`tagNumber` is `tagName().mid(1).toInt()`, `plainText` is `toPlainText()`,
`node` tells DOM nodes apart. -/
structure QWebElement where
  tagNumber : Int
  plainText : String
  node : Nat
deriving DecidableEq, Repr

/-- The null element `QWebElement()`. -/
def QWebElement.null : QWebElement := ⟨0, "", 0⟩

/-- A `QRectF`, of which only `x()` and `y()` are read.  A finite `qreal` is a
rational number and is compared as one. -/
structure QRectF where
  x : ℚ
  y : ℚ
deriving DecidableEq

/-- A `QWebPrinter`: where an element was laid out (page index and rectangle)
and how many pages the document has. -/
structure QWebPrinter where
  elementLocation : QWebElement → Int × QRectF
  pageCount : Int

/-- The key type `QPair<int, QPair<qreal,qreal> >` of the `headings` map. -/
abbrev HeadingKey := Int × (ℚ × ℚ)

/-- The comparison `operator<` of `QPair`, applied at both levels of the key:
`a.first < b.first || (!(b.first < a.first) && a.second < b.second)`. -/
def qPairLess (a b : HeadingKey) : Bool :=
  decide (a.1 < b.1) ||
    (!decide (b.1 < a.1) &&
      (decide (a.2.1 < b.2.1) || (!decide (b.2.1 < a.2.1) && decide (a.2.2 < b.2.2))))

/-- The assignment `headings[key] = e` on a `QMap`, kept as the list of its
entries in iteration (ascending key) order.  An entry with an equivalent key
has its value replaced. -/
def headingsInsert (key : HeadingKey) (e : QWebElement) :
    List (HeadingKey × QWebElement) → List (HeadingKey × QWebElement)
  | [] => [(key, e)]
  | (k, v) :: rest =>
    if qPairLess key k then (key, e) :: (k, v) :: rest
    else if qPairLess k key then (k, v) :: headingsInsert key e rest
    else (k, e) :: rest

/-- The character Qt writes for the digit `d` in a base up to 36: `'0' + d`
below ten, `'a' + (d - 10)` from ten on. -/
def digit36 (d : Nat) : Char :=
  if d < 10 then Char.ofNat (48 + d) else Char.ofNat (87 + d)

/-- The digit loop of `QString::number`: the digits of `n` in base 36 are put
in front of `ds`, least significant first, until the quotient is zero. -/
def number36Core : Nat → Nat → List Char → List Char
  | 0, _, ds => ds
  | fuel + 1, n, ds =>
    if n / 36 = 0 then digit36 (n % 36) :: ds
    else number36Core fuel (n / 36) (digit36 (n % 36) :: ds)

/-- The rendering `QString::number(n, 36)` of a non-negative number: digits
`0-9a-z`, most significant first, `"0"` for zero. -/
def number36 (n : Nat) : String := String.mk (number36Core (n + 1) n [])

/-- The value of a base-36 digit character. -/
def digitValue36 (ch : Char) : Nat :=
  if ch.toNat < 58 then ch.toNat - 48 else ch.toNat - 87

/-- The number a string of base-36 digits stands for, reading on from `acc`. -/
def value36 (acc : Nat) (ds : List Char) : Nat :=
  ds.foldl (fun a ch => a * 36 + digitValue36 ch) acc

/-- The `int` that a 32-bit two's complement machine keeps of the integer `x`:
the result of an `int` addition or subtraction whose exact value is `x`. -/
def wrapInt (x : Int) : Int := (x + 2147483648) % 4294967296 - 2147483648

/-! ## The data model -/

/-- An `OutlineItem`.  `parent` and `children` hold pointers into the store. -/
structure OutlineItem where
  parent : Option Nat
  children : List Nat
  page : Int
  value : String
  element : QWebElement
  anchor : String
deriving DecidableEq

/-- The item made by `new OutlineItem()`: no parent, no children, empty
strings, null element.  The constructor is declared in `outline_p.hh`; these
are the values the synthetic root is described with (null parent, empty value
and anchor), and the page it leaves unset is written 0. -/
def OutlineItem.fresh : OutlineItem := ⟨none, [], 0, "", QWebElement.null, ""⟩

/-- The store of `OutlineItem` objects; the pointer `p` is the position `p`. -/
abbrev Heap := List OutlineItem

/-- The fields of `Settings` that `outline.cc` reads. -/
structure Settings where
  outline : Bool
  outlineDepth : Int
  pageOffset : Int
deriving DecidableEq

/-- The class `OutlinePrivate`. -/
structure OutlinePrivate where
  settings : Settings
  documentOutlines : List Nat
  pageCount : Int
  anchorCounter : Nat
deriving DecidableEq

/-- An `Outline` object (its `d` pointer dereferenced) together with the store
its items live in. -/
structure Outline where
  items : Heap
  d : OutlinePrivate
deriving DecidableEq

/-- The constructor `Outline::Outline(settings)` with
`OutlinePrivate::OutlinePrivate(s)`, lines 42-44 and 83: `settings` is
initialised from the argument and `documentOutlines` is an empty list;
`pageCount` and `anchorCounter` are not initialised and hold the
indeterminate values given here.  `items` is the store at the time of the
call. -/
def Outline.construct (items : Heap) (settings : Settings) (indeterminatePageCount : Int)
    (indeterminateAnchorCounter : Nat) : Outline :=
  { items := items
    d := { settings := settings
           documentOutlines := []
           pageCount := indeterminatePageCount
           anchorCounter := indeterminateAnchorCounter } }

/-! ## `Outline::addWebPage` -/

/-- The local variables of the loop of `addWebPage` (lines 104-125) that change
from one heading to the next, with the store and `d->anchorCounter`.
`levelStack` is written top first: its head is `levelStack.back()`. -/
structure BuildState where
  items : Heap
  anchorCounter : Nat
  levelStack : List Nat
  old : Option Nat
deriving DecidableEq

/-- Lines 117-120: `while(levelStack.back() >= level) { old = old->parent;
levelStack.pop_back(); }`. -/
def popLevels (items : Heap) (level : Nat) :
    List Nat → Option Nat → Option (List Nat × Option Nat)
  | [], _ => none
  | top :: rest, old =>
    if top ≥ level then
      match old with
      | none => none
      | some o =>
        match items[o]? with
        | none => none
        | some it => popLevels items level rest it.parent
    else some (top :: rest, old)

/-- The write `p->... = ...` of a field of the object at `p`. -/
def Heap.update (items : Heap) (p : Nat) (f : OutlineItem → OutlineItem) : Option Heap :=
  match items[p]? with
  | none => none
  | some it => some (items.set p (f it))

/-- The `uint level = element.tagName().mid(1).toInt()` of line 111. -/
def headingLevel (element : QWebElement) : Nat := (element.tagNumber % 2 ^ 32).toNat

/-- The string `QString("__WKANCHOR_")+QString::number(counter,36)`. -/
def anchorName (counter : Nat) : String := "__WKANCHOR_" ++ number36 counter

/-- One iteration of the loop, lines 109-124, for the map entry `(key, element)`. -/
def addHeading (pageCount : Int) (st : BuildState) (key : HeadingKey)
    (element : QWebElement) : Option BuildState :=
  let level := headingLevel element
  let item := st.items.length
  let created : OutlineItem :=
    { OutlineItem.fresh with
      page := wrapInt (pageCount + key.1)
      value := element.plainText
      element := element
      anchor := anchorName st.anchorCounter }
  let items := st.items ++ [created]
  match popLevels items level st.levelStack st.old with
  | none => none
  | some (levelStack, old) =>
    match Heap.update items item (fun it => { it with parent := old }) with
    | none => none
    | some items =>
      match old with
      | none => none
      | some o =>
        match Heap.update items o (fun it => { it with children := it.children ++ [item] }) with
        | none => none
        | some items =>
          some { items := items
                 anchorCounter := st.anchorCounter + 1
                 levelStack := level :: levelStack
                 old := some item }

/-- The loop of lines 108-125 over the entries of `headings` in key order. -/
def buildLoop (pageCount : Int) : BuildState → List (HeadingKey × QWebElement) → Option BuildState
  | st, [] => some st
  | st, (key, element) :: rest =>
    match addHeading pageCount st key element with
    | none => none
    | some st => buildLoop pageCount st rest

/-- Lines 104-125: the level stack `[0]`, the new root, and the loop.  The
result is the final loop state and the pointer `root`. -/
def buildTree (items : Heap) (pageCount : Int) (anchorCounter : Nat)
    (headings : List (HeadingKey × QWebElement)) : Option (BuildState × Nat) :=
  let root := items.length
  let st : BuildState :=
    { items := items ++ [OutlineItem.fresh]
      anchorCounter := anchorCounter
      levelStack := [0]
      old := some root }
  match buildLoop pageCount st headings with
  | none => none
  | some st => some (st, root)

/-- Lines 93-98: the map `headings` filled from the elements that
`frame->findAllElements("h1,h2,h3,h4,h5,h6,h7,h8,h9")` returned (`found`). -/
def collectHeadings (wp : QWebPrinter) (found : List QWebElement) :
    List (HeadingKey × QWebElement) :=
  found.foldl
    (fun headings e =>
      let location := wp.elementLocation e
      headingsInsert (location.1, (location.2.y, location.2.x)) e headings)
    []

/-- The method `Outline::addWebPage(name, wp, frame)`, lines 92-127.  `found`
is the result of `frame->findAllElements(...)`; `name` is not used. -/
def Outline.addWebPage (o : Outline) (wp : QWebPrinter) (found : List QWebElement) :
    Option Outline :=
  let headings := collectHeadings wp found
  match buildTree o.items o.d.pageCount o.d.anchorCounter headings with
  | none => none
  | some (st, _) =>
    some { items := st.items
           d := { o.d with
                  anchorCounter := st.anchorCounter
                  pageCount := wrapInt (o.d.pageCount + wp.pageCount) } }

/-- The method `Outline::pageCount()`. -/
def Outline.pageCount (o : Outline) : Int := o.d.pageCount

/-- A sequence of calls of `addWebPage` on one collection, one call per
rendered document, given by its printer and the heading elements found. -/
def Outline.addWebPages (o : Outline) : List (QWebPrinter × List QWebElement) → Option Outline
  | [] => some o
  | (wp, found) :: rest =>
    match o.addWebPage wp found with
    | none => none
    | some o2 => o2.addWebPages rest

/-! ## `Outline::printOutline` -/

/-- A call the outline code makes on the `QPrinter`. -/
inductive OutlineEvent where
  | beginSection (value anchor : String)
  | endSection
deriving DecidableEq, Repr

/-- A `QPrinter`, seen as the sequence of outline calls it has received. -/
abbrev QPrinter := List OutlineEvent

/-- The call `printer->beginSectionOutline(value, anchor)`. -/
def QPrinter.beginSectionOutline (printer : QPrinter) (value anchor : String) : QPrinter :=
  printer ++ [OutlineEvent.beginSection value anchor]

/-- The call `printer->endSectionOutline()`. -/
def QPrinter.endSectionOutline (printer : QPrinter) : QPrinter :=
  printer ++ [OutlineEvent.endSection]

/-- The method `OutlinePrivate::outlineChildren(item, printer, level)`, lines
59-66.  Every call uses one unit of fuel, so the fuel bounds the depth of the
recursion; the result is `none` when it runs out or a pointer dangles. -/
def OutlinePrivate.outlineChildren (d : OutlinePrivate) (items : Heap) :
    Nat → Nat → QPrinter → Int → Option QPrinter
  | 0, _, _, _ => none
  | fuel + 1, item, printer, level =>
    if level + 1 > d.settings.outlineDepth then some printer
    else
      match items[item]? with
      | none => none
      | some it =>
        it.children.foldlM
          (fun printer i =>
            match items[i]? with
            | none => none
            | some child =>
              match OutlinePrivate.outlineChildren d items fuel i
                  (printer.beginSectionOutline child.value child.anchor) (level + 1) with
              | none => none
              | some printer => some printer.endSectionOutline)
          printer

/-- The method `Outline::printOutline(printer)`, lines 177-181. -/
def Outline.printOutline (o : Outline) (fuel : Nat) (printer : QPrinter) : Option QPrinter :=
  if !o.d.settings.outline then some printer
  else
    o.d.documentOutlines.foldlM
      (fun printer i => o.d.outlineChildren o.items fuel i printer 0)
      printer

/-! ## `Outline::fillAnchors` -/

/-- A `QHash<QString, QWebElement>`, kept as the list of its entries; no key
occurs twice. -/
abbrev AnchorMap := List (String × QWebElement)

/-- The assignment `anchors[key] = e`. -/
def AnchorMap.assign (anchors : AnchorMap) (key : String) (e : QWebElement) : AnchorMap :=
  (key, e) :: anchors.filter (fun entry => decide (entry.1 ≠ key))

/-- The method `OutlinePrivate::fillChildAnchors(item, anchors)`, lines 51-57.
The recursive call of line 55 is on `item`, as in the source.  Every call uses
one unit of fuel; the result is `none` when it runs out or a pointer dangles. -/
def OutlinePrivate.fillChildAnchors (items : Heap) : Nat → Nat → AnchorMap → Option AnchorMap
  | 0, _, _ => none
  | fuel + 1, item, anchors =>
    match items[item]? with
    | none => none
    | some it =>
      it.children.foldlM
        (fun anchors i =>
          match items[i]? with
          | none => none
          | some child =>
            if child.anchor = "" then some anchors
            else
              OutlinePrivate.fillChildAnchors items fuel item
                (anchors.assign child.anchor child.element))
        anchors

/-- The method `Outline::fillAnchors(doc, anchors)`, lines 161-164. -/
def Outline.fillAnchors (o : Outline) (fuel : Nat) (doc : Int) (anchors : AnchorMap) :
    Option AnchorMap :=
  if doc < 0 ∨ doc ≥ o.d.documentOutlines.length then some anchors
  else
    match o.d.documentOutlines[doc.toNat]? with
    | none => none
    | some root => OutlinePrivate.fillChildAnchors o.items fuel root anchors

/-! ## `Outline::fillHeaderFooterParms` -/

/-- A `QHash<QString, QString>`, kept as the list of its entries; no key
occurs twice. -/
abbrev ParmMap := List (String × String)

/-- The assignment `parms[key] = value`. -/
def ParmMap.assign (parms : ParmMap) (key value : String) : ParmMap :=
  (key, value) :: parms.filter (fun entry => decide (entry.1 ≠ key))

/-- The digit loop of `QString::number` in base 10: the decimal digits of `n`
are put in front of `ds`, least significant first, until the quotient is
zero. -/
def decimalCore : Nat → Nat → List Char → List Char
  | 0, _, ds => ds
  | fuel + 1, n, ds =>
    if n / 10 = 0 then digit36 (n % 10) :: ds
    else decimalCore fuel (n / 10) (digit36 (n % 10) :: ds)

/-- The rendering `QString::number(n)` of an `int`: the decimal digits of the
absolute value, most significant first, after a `-` for a negative number. -/
def number10 (n : Int) : String :=
  if n < 0 then String.mk ('-' :: decimalCore (n.natAbs + 1) n.natAbs [])
  else String.mk (decimalCore (n.natAbs + 1) n.natAbs [])

/-- The method `Outline::fillHeaderFooterParms(page, parms)`, lines 134-139. -/
def Outline.fillHeaderFooterParms (o : Outline) (page : Int) (parms : ParmMap) : ParmMap :=
  let off := o.d.settings.pageOffset
  let parms := parms.assign "frompage" (number10 off)
  let parms := parms.assign "topage" (number10 (wrapInt (wrapInt (off + o.d.pageCount) - 1)))
  let parms := parms.assign "page" (number10 (wrapInt (page + off)))
  parms.assign "webpage" "foobar"

/-! ## Vocabulary of the statements -/

/-- The level of heading number `i` of the sequence, `0` past its end. -/
def levelAt (headings : List (HeadingKey × QWebElement)) (i : Nat) : Nat :=
  match headings[i]? with
  | some h => headingLevel h.2
  | none => 0

/-- The `parent` field of the object at `p`, when there is one. -/
def parentAt (items : Heap) (p : Nat) : Option (Option Nat) :=
  (items[p]?).map (fun it => it.parent)

/-- The pointer `parent` is the nearest preceding heading of smaller level
than heading `i`, or `root` when no preceding heading has a smaller level.
Heading `j` of the document lives at `root + 1 + j`. -/
def NearestSmaller (lv : Nat → Nat) (root i : Nat) (parent : Option Nat) : Prop :=
  (parent = some root ∧ ∀ j, j < i → lv i ≤ lv j) ∨
  (∃ j, j < i ∧ parent = some (root + 1 + j) ∧ lv j < lv i ∧
    ∀ k, j < k → k < i → lv i ≤ lv k)

/-- The level stack lists the levels on the parent path from `old` up to the
root, whose level is the sentinel `0`. -/
def ChainOK (lv : Nat → Nat) (root : Nat) (items : Heap) : List Nat → Option Nat → Prop
  | [], _ => False
  | [l], old => l = 0 ∧ old = some root
  | l :: l2 :: rest, old =>
    ∃ i par, old = some (root + 1 + i) ∧ lv i = l ∧
      parentAt items (root + 1 + i) = some par ∧ (∀ q, par = some q → q < root + 1 + i) ∧
      ChainOK lv root items (l2 :: rest) par

/-- Pre-order traversal of the nodes reachable from a work list of pointers:
the front node is visited, then its children in list order (with all their
descendants), then the remainder of the work list.  The result is `none` when
a pointer dangles or the fuel (one unit per visited node) runs out. -/
def preorder (items : Heap) : Nat → List Nat → Option (List Nat)
  | _, [] => some []
  | 0, _ :: _ => none
  | fuel + 1, p :: rest =>
    match items[p]? with
    | none => none
    | some it => (preorder items fuel (it.children ++ rest)).map (fun ps => p :: ps)

/-- Five headings `h1 h2 h3 h2 h1` on one page, top to bottom. -/
def sampleHeadings : List (HeadingKey × QWebElement) :=
  [((0, (10, 0)), ⟨1, "h1a", 1⟩), ((0, (20, 0)), ⟨2, "h2a", 2⟩), ((0, (30, 0)), ⟨3, "h3a", 3⟩),
   ((0, (40, 0)), ⟨2, "h2b", 4⟩), ((0, (50, 0)), ⟨1, "h1b", 5⟩)]

/-- The position of the parent of heading `j` in the document whose root
lives at `root`: `0` for the root, `i + 1` for heading `i`. -/
def parentPos (items : Heap) (root j : Nat) : Nat :=
  match parentAt items (root + 1 + j) with
  | some (some q) => q - root
  | _ => 0

/-- The number of outline items the calls of `addWebPage` for `docs` create
for headings: one per entry of each document's `headings` map. -/
def headingCount (docs : List (QWebPrinter × List QWebElement)) : Nat :=
  (docs.map (fun doc => (collectHeadings doc.1 doc.2).length)).sum

/-- The key under which `addWebPage` files the element `e`, line 97. -/
def headingKey (wp : QWebPrinter) (e : QWebElement) : HeadingKey :=
  ((wp.elementLocation e).1, ((wp.elementLocation e).2.y, (wp.elementLocation e).2.x))

/-- A printer that lays every element out on page `page`, one below the
other in DOM order, for a document of `pages` pages. -/
def samplePrinter (page pages : Int) : QWebPrinter :=
  { elementLocation := fun e => (page, ⟨0, e.node⟩), pageCount := pages }

/-- The heading elements `h1 h2 h3 h2 h1` of `sampleHeadings`. -/
def sampleFound : List QWebElement :=
  [⟨1, "h1a", 1⟩, ⟨2, "h2a", 2⟩, ⟨3, "h3a", 3⟩, ⟨2, "h2b", 4⟩, ⟨1, "h1b", 5⟩]

/-- Two heading elements `h1 h2` with the texts of the first two of
`sampleFound`. -/
def sampleFoundB : List QWebElement := [⟨1, "h1a", 6⟩, ⟨2, "h2a", 7⟩]

/-- A collection without documents in which both counters hold zero.  The
constructor does not establish this: see `Outline.construct`. -/
def sampleOutline : Outline :=
  { items := []
    d := { settings := ⟨true, 1, 0⟩, documentOutlines := [], pageCount := 0, anchorCounter := 0 } }

/-- Document A with 3 pages and document B with 2 pages. -/
def sampleDocs : List (QWebPrinter × List QWebElement) :=
  [(samplePrinter 1 3, sampleFound), (samplePrinter 0 2, sampleFoundB)]

/-- A finite forest of outline nodes: a node has a value, an anchor, an
element, the forest of its children and the forest of the siblings after it.
A list of trees is the chain of the `next` fields. -/
inductive Forest where
  | nil
  | cons (value anchor : String) (element : QWebElement) (children next : Forest)
deriving DecidableEq

/-- The pointers `ps` are, in the store, the roots of the trees of the forest:
same values, anchors, elements and child lists, all the way down. -/
def represents (items : Heap) : List Nat → Forest → Bool
  | [], Forest.nil => true
  | p :: ps, Forest.cons value anchor element children next =>
    match items[p]? with
    | none => false
    | some it =>
      decide (it.value = value) && decide (it.anchor = anchor) &&
        decide (it.element = element) &&
        represents items it.children children && represents items ps next
  | _, _ => false

/-- The greatest number of nodes on a path from a tree of the forest down
to a leaf. -/
def Forest.height : Forest → Nat
  | Forest.nil => 0
  | Forest.cons _ _ _ children next => max (children.height + 1) next.height

/-- The nodes of a forest in pre-order, each with its depth (the trees of the
forest have depth `k`), value, anchor and forest of children. -/
def Forest.listing (k : Nat) : Forest → List (Nat × String × String × Forest)
  | Forest.nil => []
  | Forest.cons value anchor _ children next =>
    (k, value, anchor, children) :: (children.listing (k + 1) ++ next.listing k)

/-- The nodes below the roots of a forest of document roots, in pre-order,
document after document; the children of a root have depth 0. -/
def Forest.underRoots : Forest → List (Nat × String × String × Forest)
  | Forest.nil => []
  | Forest.cons _ _ _ children next => children.listing 0 ++ next.underRoots

/-- The `beginSectionOutline` calls of an event sequence, with their arguments. -/
def beginsOf (events : List OutlineEvent) : List (String × String) :=
  events.filterMap (fun ev =>
    match ev with
    | OutlineEvent.beginSection value anchor => some (value, anchor)
    | OutlineEvent.endSection => none)

/-- The number of `endSectionOutline` calls of an event sequence. -/
def endCount (events : List OutlineEvent) : Nat :=
  events.countP (fun ev => decide (ev = OutlineEvent.endSection))

/-- The calls that `outlineChildren`, entered at `level` for an item whose
children form the forest `f`, makes under the depth limit `depth`. -/
def emitted (depth : Int) : Int → Forest → List OutlineEvent
  | _, Forest.nil => []
  | level, Forest.cons value anchor _ children next =>
    (if level + 1 > depth then []
     else OutlineEvent.beginSection value anchor :: emitted depth (level + 1) children ++
       [OutlineEvent.endSection]) ++ emitted depth level next

/-- The calls that `printOutline` makes for the forest of document roots. -/
def emittedRoots (depth : Int) : Forest → List OutlineEvent
  | Forest.nil => []
  | Forest.cons _ _ _ children next => emitted depth 0 children ++ emittedRoots depth next

/-- The nodes of a listing whose depth is below the limit. -/
def visible (depth : Int) (nodes : List (Nat × String × String × Forest)) :
    List (Nat × String × String × Forest) :=
  nodes.filter (fun n => decide ((n.1 : Int) < depth))

/-- The value and the anchor of each node of a listing. -/
def titles (nodes : List (Nat × String × String × Forest)) : List (String × String) :=
  nodes.map (fun n => (n.2.1, n.2.2.1))

/-- Proper nesting of an event sequence: no prefix has more end calls than
begin calls, and the whole sequence has equally many of both. -/
def Nested (events : List OutlineEvent) : Prop :=
  (∀ n, endCount (events.take n) ≤ (beginsOf (events.take n)).length) ∧
    endCount events = (beginsOf events).length

/-- The forest of document roots that `sampleItems` holds under pointer 0:
one root with the tree `h1a -> (h2a -> (h3a), h2b)` and the leaf `h1b`. -/
def sampleForest : Forest :=
  Forest.cons "" "" QWebElement.null
    (Forest.cons "h1a" "__WKANCHOR_0" ⟨1, "h1a", 1⟩
      (Forest.cons "h2a" "__WKANCHOR_1" ⟨2, "h2a", 2⟩
        (Forest.cons "h3a" "__WKANCHOR_2" ⟨3, "h3a", 3⟩ Forest.nil Forest.nil)
        (Forest.cons "h2b" "__WKANCHOR_3" ⟨2, "h2b", 4⟩ Forest.nil Forest.nil))
      (Forest.cons "h1b" "__WKANCHOR_4" ⟨1, "h1b", 5⟩ Forest.nil Forest.nil))
    Forest.nil

/-- The store of a document `root -> (h1a -> (h2a -> (h3a), h2b), h1b)`, as
`addWebPage` builds it for `sampleFound`. -/
def sampleItems : Heap :=
  [⟨none, [1, 5], 0, "", QWebElement.null, ""⟩,
   ⟨some 0, [2, 4], 0, "h1a", ⟨1, "h1a", 1⟩, "__WKANCHOR_0"⟩,
   ⟨some 1, [3], 0, "h2a", ⟨2, "h2a", 2⟩, "__WKANCHOR_1"⟩,
   ⟨some 2, [], 0, "h3a", ⟨3, "h3a", 3⟩, "__WKANCHOR_2"⟩,
   ⟨some 1, [], 0, "h2b", ⟨2, "h2b", 4⟩, "__WKANCHOR_3"⟩,
   ⟨some 0, [], 0, "h1b", ⟨1, "h1b", 5⟩, "__WKANCHOR_4"⟩]

/-- A collection whose one document root is the root of `sampleItems`, with
the outline enabled and cut at `outlineDepth`. -/
def sampleCollection (outlineDepth : Int) : Outline :=
  { items := sampleItems
    d := { settings := ⟨true, outlineDepth, 0⟩, documentOutlines := [0], pageCount := 3,
           anchorCounter := 5 } }

/-- The nodes `printOutline` visits, in pre-order, roots in list order: the
nodes below the document roots of depth less than `outlineDepth` when the
outline is enabled, none when it is disabled. -/
def visited (o : Outline) (roots : Forest) : List (Nat × String × String × Forest) :=
  if o.d.settings.outline then visible o.d.settings.outlineDepth roots.underRoots else []

/-- A store with a root, a child of the root whose anchor is empty, and a
grandchild with the anchor `"x"`. -/
def sampleDeepItems : Heap :=
  [⟨none, [1], 0, "", QWebElement.null, ""⟩,
   ⟨some 0, [2], 0, "child", ⟨1, "child", 1⟩, ""⟩,
   ⟨some 1, [], 0, "grandchild", ⟨2, "grandchild", 2⟩, "x"⟩]

/-- A collection whose one document root is the root of `sampleDeepItems`. -/
def sampleDeepCollection : Outline :=
  { items := sampleDeepItems
    d := { settings := ⟨true, 3, 0⟩, documentOutlines := [0], pageCount := 1,
           anchorCounter := 0 } }

/-- The lexicographic order of the heading keys: page index first, then the
vertical position `y`, then the horizontal position `x`. -/
def keyBefore (a b : HeadingKey) : Prop :=
  a.1 < b.1 ∨ (a.1 = b.1 ∧ (a.2.1 < b.2.1 ∨ (a.2.1 = b.2.1 ∧ a.2.2 < b.2.2)))

/-- A printer that lays every element out at the same place of page 0. -/
def samePlacePrinter : QWebPrinter :=
  { elementLocation := fun _ => (0, ⟨0, 0⟩), pageCount := 1 }

/-- Two distinct heading elements; `samePlacePrinter` lays them out at the
same place. -/
def sampleTwins : List QWebElement := [⟨1, "first", 1⟩, ⟨2, "second", 2⟩]

/-- The sample collection with the outline setting disabled. -/
def sampleDisabled : Outline :=
  { items := sampleItems
    d := { settings := ⟨false, 3, 0⟩, documentOutlines := [0], pageCount := 3,
           anchorCounter := 5 } }

/-- Three headings `h2 h2 h2`, one below the other. -/
def sampleFlat : List (HeadingKey × QWebElement) :=
  [((0, (10, 0)), ⟨2, "a", 1⟩), ((0, (20, 0)), ⟨2, "b", 2⟩), ((0, (30, 0)), ⟨2, "c", 3⟩)]

/-- A single heading `h7`. -/
def sampleSingle : List (HeadingKey × QWebElement) := [((0, (10, 0)), ⟨7, "deep", 1⟩)]

/-- The loop state at the entry of the loop of `addWebPage`: the new root is
allocated, the level stack is `[0]` and the cursor `old` is the root. -/
def loopStart (items : Heap) (anchorCounter : Nat) : BuildState :=
  { items := items ++ [OutlineItem.fresh]
    anchorCounter := anchorCounter
    levelStack := [0]
    old := some items.length }

/-- The pointers on the path that follows the `parent` fields from `p` up to
an object without parent, `p` first.  One unit of fuel per object. -/
def parentPath (items : Heap) : Nat → Option Nat → List Nat
  | 0, _ => []
  | _ + 1, none => []
  | fuel + 1, some p => p :: parentPath items fuel ((items[p]?).bind (fun it => it.parent))

/-- The level that the object at `p` stands for in the document whose root
lives at `root`: `0` for the root, the heading level for the node of a
heading. -/
def nodeLevel (headings : List (HeadingKey × QWebElement)) (root p : Nat) : Nat :=
  if p ≤ root then 0 else levelAt headings (p - (root + 1))

/-- A heading with the level 0, which the selector of `addWebPage` cannot
deliver. -/
def sampleLevelZero : List (HeadingKey × QWebElement) := [((0, (10, 0)), ⟨0, "h0", 1⟩)]

/-- The number a string of decimal digits stands for, reading on from `acc`. -/
def value10 (acc : Nat) (ds : List Char) : Nat :=
  ds.foldl (fun a ch => a * 10 + digitValue36 ch) acc

/-- A collection of 3 pages whose page numbers are shifted by 10. -/
def sampleShifted : Outline :=
  { items := sampleItems
    d := { settings := ⟨true, 3, 10⟩, documentOutlines := [0], pageCount := 3,
           anchorCounter := 5 } }

/-- The value of `d->pageCount` after the calls of `addWebPage` for `docs`,
from the value `pc` before them: line 126 adds the page count of each
document in `int`. -/
def pageCountAfter (pc : Int) (docs : List (QWebPrinter × List QWebElement)) : Int :=
  docs.foldl (fun acc doc => wrapInt (acc + doc.1.pageCount)) pc

/-- The values of the type `int`. -/
def InIntRange (x : Int) : Prop := -2147483648 ≤ x ∧ x ≤ 2147483647

/-- A collection of 3 pages whose page offset is the greatest `int`. -/
def sampleMaxOffset : Outline :=
  { items := sampleItems
    d := { settings := ⟨true, 3, 2147483647⟩, documentOutlines := [0], pageCount := 3,
           anchorCounter := 5 } }

/-- The loop invariant of `addWebPage` after `m` headings of `hs`: `base` is
the store before the call, `pc` the page count and `c` the anchor counter at
entry.  The new root lives at `base.length`, heading `i` at
`base.length + 1 + i`. -/
structure LoopInv (base : Heap) (pc : Int) (c : Nat) (hs : List (HeadingKey × QWebElement))
    (m : Nat) (st : BuildState) : Prop where
  len : st.items.length = base.length + 1 + m
  ctr : st.anchorCounter = c + m
  frame : ∀ p, p < base.length → st.items[p]? = base[p]?
  root : ∃ it, st.items[base.length]? = some it ∧ it.parent = none ∧ it.page = 0 ∧
    it.value = "" ∧ it.element = QWebElement.null ∧ it.anchor = ""
  node : ∀ i, i < m → ∃ it h, st.items[base.length + 1 + i]? = some it ∧ hs[i]? = some h ∧
    it.page = wrapInt (pc + h.1.1) ∧ it.value = h.2.plainText ∧ it.element = h.2 ∧
    it.anchor = anchorName (c + i) ∧ NearestSmaller (levelAt hs) base.length i it.parent
  kids : ∀ p it, st.items[p]? = some it → base.length ≤ p →
    it.children = ((List.range m).filter (fun j =>
      decide (parentAt st.items (base.length + 1 + j) = some (some p)))).map
        (fun j => base.length + 1 + j)
  chain : ChainOK (levelAt hs) base.length st.items st.levelStack st.old
  top : st.old = some (base.length + m)

end Wk

namespace Wk

theorem addHeading_eq (pc : Int) (st : BuildState) (key : HeadingKey) (e : QWebElement)
    (stack : List Nat) (o : Nat) (ito : OutlineItem)
    (hpop : popLevels
      (st.items ++ [OutlineItem.mk none [] (wrapInt (pc + key.1)) e.plainText e (anchorName st.anchorCounter)])
      (headingLevel e) st.levelStack st.old = some (stack, some o))
    (ho : st.items[o]? = some ito) :
    addHeading pc st key e = some
      { items := st.items.set o { ito with children := ito.children ++ [st.items.length] } ++
          [OutlineItem.mk (some o) [] (wrapInt (pc + key.1)) e.plainText e (anchorName st.anchorCounter)]
        anchorCounter := st.anchorCounter + 1
        levelStack := headingLevel e :: stack
        old := some st.items.length } := by
  have hlt : o < st.items.length := by
    rcases Nat.lt_or_ge o st.items.length with h | h
    · exact h
    · rw [List.getElem?_eq_none h] at ho; cases ho
  have hne : o ≠ st.items.length := Nat.ne_of_lt hlt
  simp only [addHeading, OutlineItem.fresh, hpop, Heap.update]
  simp [List.getElem?_append_right, List.getElem?_append_left, hlt, ho, List.getElem?_set,
    hne.symm, List.set_append, hne]

theorem parentAt_append_left (items : Heap) (it : OutlineItem) (p : Nat)
    (hp : p < items.length) : parentAt (items ++ [it]) p = parentAt items p := by
  simp [parentAt, List.getElem?_append_left hp]

theorem ChainOK.mono (lv : Nat → Nat) (root n : Nat) (items items2 : Heap)
    (h : ∀ p par, p < n → parentAt items p = some par → parentAt items2 p = some par) :
    ∀ (stack : List Nat) (old : Option Nat), (∀ q, old = some q → q < n) →
      ChainOK lv root items stack old → ChainOK lv root items2 stack old
  | [], _, _, hc => by simp [ChainOK] at hc
  | [l], old, _, hc => by simpa [ChainOK] using hc
  | l :: l2 :: rest, old, hb, hc => by
    obtain ⟨i, par, ho, hl, hp, hlt, hrest⟩ := hc
    have hi : root + 1 + i < n := hb _ ho
    refine ⟨i, par, ho, hl, h _ _ hi hp, hlt, ?_⟩
    exact ChainOK.mono lv root n items items2 h (l2 :: rest) par
      (fun q hq => Nat.lt_trans (hlt q hq) hi) hrest

theorem ChainOK.ne_nil (lv : Nat → Nat) (root : Nat) (items : Heap) (stack : List Nat)
    (old : Option Nat) (hc : ChainOK lv root items stack old) : stack ≠ [] := by
  intro h
  subst h
  simp [ChainOK] at hc

/-- The pop loop stops at the nearest preceding heading of smaller level. -/
theorem popLevels_spec (lv : Nat → Nat) (root m level : Nat) (items : Heap) (hlevel : 1 ≤ level)
    (hnode : ∀ i, i < m → ∃ it, items[root + 1 + i]? = some it ∧
      NearestSmaller lv root i it.parent) :
    ∀ (stack : List Nat) (old : Option Nat),
      ChainOK lv root items stack old →
      (∀ q, old = some q → q ≤ root + m) →
      (∀ j, j < m → (∀ q, old = some q → q < root + 1 + j) → level ≤ lv j) →
      ∃ stack2 o, popLevels items level stack old = some (stack2, some o) ∧
        ChainOK lv root items stack2 (some o) ∧
        ((o = root ∧ ∀ j, j < m → level ≤ lv j) ∨
         (∃ j, j < m ∧ o = root + 1 + j ∧ lv j < level ∧
            ∀ k, j < k → k < m → level ≤ lv k))
  | [], _, hc, _, _ => by simp [ChainOK] at hc
  | [l], old, hc, _, hgap => by
    obtain ⟨hl, ho⟩ := hc
    subst hl; subst ho
    refine ⟨[0], root, ?_, ?_, Or.inl ⟨rfl, ?_⟩⟩
    · simp [popLevels]; omega
    · simp [ChainOK]
    · intro j hj
      exact hgap j hj (by intro q hq; cases hq; omega)
  | l :: l2 :: rest, old, hc, hbound, hgap => by
    obtain ⟨i, par, ho, hl, hp, hlt, hrest⟩ := hc
    subst ho
    have hi : i < m := by have := hbound _ rfl; omega
    obtain ⟨it, hit, hns⟩ := hnode i hi
    have hpar : par = it.parent := by simpa [parentAt, hit] using hp.symm
    subst hpar
    by_cases hge : level ≤ l
    · have hb2 : ∀ q, it.parent = some q → q ≤ root + m := by
        intro q hq
        rcases hns with ⟨h1, _⟩ | ⟨j, hj, h1, _⟩
        · rw [h1] at hq; cases hq; omega
        · rw [h1] at hq; cases hq; omega
      have hg2 : ∀ j, j < m → (∀ q, it.parent = some q → q < root + 1 + j) → level ≤ lv j := by
        intro j hj hq
        rcases Nat.lt_trichotomy j i with hji | hji | hji
        · rcases hns with ⟨_, h2⟩ | ⟨j0, _, h1, _, h3⟩
          · have := h2 j hji; omega
          · have := hq _ h1
            have := h3 j (by omega) hji
            omega
        · subst hji; omega
        · exact hgap j hj (by intro q hq2; cases hq2; omega)
      obtain ⟨stack2, o, h1, h2, h3⟩ :=
        popLevels_spec lv root m level items hlevel hnode (l2 :: rest) it.parent hrest hb2 hg2
      refine ⟨stack2, o, ?_, h2, h3⟩
      rw [popLevels]
      simp only [ge_iff_le, hge, if_true, hit]
      exact h1
    · refine ⟨l :: l2 :: rest, root + 1 + i, ?_, ?_, Or.inr ⟨i, hi, rfl, by omega, ?_⟩⟩
      · simp [popLevels, hge]
      · exact ⟨i, it.parent, rfl, hl, hp, hlt, hrest⟩
      · intro k hk hkm
        exact hgap k hkm (by intro q hq; cases hq; omega)

theorem levelAt_eq (hs : List (HeadingKey × QWebElement)) (m : Nat) (h : HeadingKey × QWebElement)
    (hm : hs[m]? = some h) : levelAt hs m = headingLevel h.2 := by
  simp [levelAt, hm]

/-- One iteration keeps the loop invariant, and cannot fail on a level of at
least one. -/
theorem addHeading_inv (base : Heap) (pc : Int) (c : Nat) (hs : List (HeadingKey × QWebElement))
    (m : Nat) (st : BuildState) (key : HeadingKey) (e : QWebElement)
    (hinv : LoopInv base pc c hs m st) (hm : hs[m]? = some (key, e))
    (hlevel : 1 ≤ headingLevel e) :
    ∃ st2, addHeading pc st key e = some st2 ∧ LoopInv base pc c hs (m + 1) st2 := by
  obtain ⟨hlen, hctr, hframe, hroot, hnode, hkids, hchain, htop⟩ := hinv
  have hlv : levelAt hs m = headingLevel e := levelAt_eq hs m (key, e) hm
  -- the store after `new OutlineItem()` and the field writes of lines 113-116
  obtain ⟨created, hcreated⟩ : ∃ x : OutlineItem,
    x = OutlineItem.mk none [] (wrapInt (pc + key.1)) e.plainText e (anchorName st.anchorCounter) := ⟨_, rfl⟩
  have hnode1 : ∀ i, i < m → ∃ it,
      (st.items ++ [created])[base.length + 1 + i]? = some it ∧
      NearestSmaller (levelAt hs) base.length i it.parent := by
    intro i hi
    obtain ⟨it, h, h1, _, _, _, _, _, h7⟩ := hnode i hi
    exact ⟨it, by rw [List.getElem?_append_left (by omega)]; exact h1, h7⟩
  have hchain1 := ChainOK.mono (levelAt hs) base.length st.items.length st.items
    (st.items ++ [created])
    (fun p par hp h => by rw [parentAt_append_left _ _ _ hp]; exact h)
    st.levelStack st.old (by intro q hq; rw [htop] at hq; cases hq; omega) hchain
  obtain ⟨stack2, o, hpop, hchain2, hns⟩ := popLevels_spec (levelAt hs) base.length m
    (headingLevel e) _ hlevel hnode1 st.levelStack st.old hchain1
    (by intro q hq; rw [htop] at hq; cases hq; omega)
    (by intro j hj hq; have := hq _ htop; omega)
  have hns2 : NearestSmaller (levelAt hs) base.length m (some o) := by
    rcases hns with ⟨h1, h2⟩ | ⟨j, h1, h2, h3, h4⟩
    · exact Or.inl ⟨by rw [h1], by rw [hlv]; exact h2⟩
    · exact Or.inr ⟨j, h1, by rw [h2], by rw [hlv]; exact h3, by rw [hlv]; exact h4⟩
  have hor : base.length ≤ o ∧ o < st.items.length := by
    rcases hns with ⟨h1, _⟩ | ⟨j, h1, h2, _⟩ <;> omega
  obtain ⟨ito, hito⟩ : ∃ ito, st.items[o]? = some ito :=
    ⟨st.items[o], List.getElem?_eq_getElem hor.2⟩
  rw [hcreated] at hpop
  refine ⟨_, addHeading_eq pc st key e stack2 o ito hpop hito, ?_⟩
  -- lookups in the new store
  obtain ⟨made, hmade⟩ : ∃ x : OutlineItem,
    x = OutlineItem.mk (some o) [] (wrapInt (pc + key.1)) e.plainText e (anchorName st.anchorCounter) :=
    ⟨_, rfl⟩
  obtain ⟨ito2, hito2⟩ : ∃ x : OutlineItem,
    x = { ito with children := ito.children ++ [st.items.length] } := ⟨_, rfl⟩
  rw [← hmade, ← hito2]
  have hget : ∀ p, p < st.items.length → p ≠ o →
      (st.items.set o ito2 ++ [made])[p]? = st.items[p]? := by
    intro p hp hpo
    rw [List.getElem?_append_left (by simpa using hp)]
    simp [List.getElem?_set, Ne.symm hpo]
  have hgeto : (st.items.set o ito2 ++ [made])[o]? = some ito2 := by
    rw [List.getElem?_append_left (by simpa using hor.2)]
    simp [List.getElem?_set, hor.2]
  have hgetn : (st.items.set o ito2 ++ [made])[st.items.length]? = some made := by
    rw [List.getElem?_append_right (by simp)]
    simp
  have hpar : ∀ p, p < st.items.length →
      parentAt (st.items.set o ito2 ++ [made]) p = parentAt st.items p := by
    intro p hp
    by_cases hpo : p = o
    · rw [hpo]
      simp only [parentAt, hgeto, hito, Option.map_some']
      rw [hito2]
    · simp only [parentAt, hget p hp hpo]
  have hparn : parentAt (st.items.set o ito2 ++ [made]) st.items.length = some (some o) := by
    rw [parentAt, hgetn, hmade]
    rfl
  have hparn2 : ∀ j, j < m → parentAt st.items (base.length + 1 + j) ≠ some (some st.items.length) := by
    intro j hj h
    obtain ⟨it, _, h1, _, _, _, _, _, h7⟩ := hnode j hj
    simp only [parentAt, h1, Option.map_some', Option.some.injEq] at h
    rcases h7 with ⟨h8, _⟩ | ⟨j0, h8, h9, _⟩
    · rw [h8] at h; injection h with h; omega
    · rw [h9] at h; injection h with h; omega
  have hkidsfilter : ∀ p, List.filter (fun j =>
      decide (parentAt (st.items.set o ito2 ++ [made]) (base.length + 1 + j) = some (some p)))
        (List.range (m + 1)) =
      List.filter (fun j => decide (parentAt st.items (base.length + 1 + j) = some (some p)))
        (List.range m) ++ (if p = o then [m] else []) := by
    intro p
    rw [List.range_succ, List.filter_append]
    congr 1
    · apply List.filter_congr
      intro j hj
      rw [hpar _ (by have := List.mem_range.mp hj; omega)]
    · have : base.length + 1 + m = st.items.length := by omega
      rw [List.filter_singleton, this, hparn]
      by_cases hpo : p = o
      · simp [hpo]
      · have : ¬ o = p := fun h => hpo h.symm
        simp [hpo, this]
  refine ⟨by simp; omega, by simp; omega, ?_, ?_, ?_, ?_, ?_, ?_⟩
  · intro p hp
    simp only
    rw [hget p (by omega) (by omega)]
    exact hframe p hp
  · obtain ⟨it, h1, h2, h3, h4, h5, h6⟩ := hroot
    simp only
    by_cases hpo : base.length = o
    · rw [hpo] at h1
      rw [hito] at h1
      cases h1
      refine ⟨ito2, by rw [hpo]; exact hgeto, ?_⟩
      rw [hito2]
      exact ⟨h2, h3, h4, h5, h6⟩
    · exact ⟨it, by rw [hget _ (by omega) hpo]; exact h1, h2, h3, h4, h5, h6⟩
  · intro i hi
    simp only
    rcases Nat.lt_or_ge i m with him | him
    · obtain ⟨it, h, h1, h2, h3, h4, h5, h6, h7⟩ := hnode i him
      by_cases hpo : base.length + 1 + i = o
      · rw [hpo] at h1
        rw [hito] at h1
        cases h1
        refine ⟨ito2, h, by rw [hpo]; exact hgeto, h2, ?_⟩
        rw [hito2]
        exact ⟨h3, h4, h5, h6, h7⟩
      · exact ⟨it, h, by rw [hget _ (by omega) hpo]; exact h1, h2, h3, h4, h5, h6, h7⟩
    · have him2 : i = m := by omega
      subst him2
      refine ⟨made, (key, e), ?_, hm, ?_⟩
      · have : base.length + 1 + i = st.items.length := by omega
        rw [this]
        exact hgetn
      · rw [hmade, hctr]
        exact ⟨rfl, rfl, rfl, rfl, hns2⟩
  · intro p it hp hrp
    simp only at hp ⊢
    rw [hkidsfilter p]
    rcases Nat.lt_trichotomy p st.items.length with hlt | heq | hgt
    · by_cases hpo : p = o
      · rw [hpo] at hp ⊢
        rw [hgeto] at hp
        cases hp
        rw [hito2]
        simp only [if_true, List.map_append, List.map_singleton]
        rw [hkids o ito hito hor.1]
        congr 2
      · rw [hget p hlt hpo] at hp
        simp only [hpo, if_false, List.append_nil]
        exact hkids p it hp hrp
    · rw [heq] at hp ⊢
      rw [hgetn] at hp
      cases hp
      have hno : ¬ st.items.length = o := by omega
      simp only [hno, if_false, List.append_nil]
      rw [hmade]
      simp only
      symm
      rw [List.map_eq_nil_iff, List.filter_eq_nil_iff]
      intro j hj
      simpa using hparn2 j (List.mem_range.mp hj)
    · rw [List.getElem?_eq_none (by simp; omega)] at hp
      cases hp
  · simp only
    cases hs2 : stack2 with
    | nil => exact absurd hs2 (ChainOK.ne_nil _ _ _ _ _ hchain2)
    | cons l2 rest =>
      rw [hs2] at hchain2
      refine ⟨m, some o, by congr 1, hlv, ?_, ?_, ?_⟩
      · have : base.length + 1 + m = st.items.length := by omega
        rw [this]
        exact hparn
      · intro q hq
        cases hq
        omega
      · refine ChainOK.mono (levelAt hs) base.length st.items.length (st.items ++ [created]) _
          ?_ (l2 :: rest) (some o) (by intro q hq; cases hq; exact hor.2) hchain2
        intro q par hq h
        rw [hpar q hq]
        rw [parentAt_append_left _ _ _ hq] at h
        exact h
  · simp only
    congr 1
    omega

theorem buildLoop_inv (base : Heap) (pc : Int) (c : Nat) (hs : List (HeadingKey × QWebElement))
    (hlevel : ∀ h, h ∈ hs → 1 ≤ headingLevel h.2) :
    ∀ (rest : List (HeadingKey × QWebElement)) (m : Nat) (st : BuildState),
      LoopInv base pc c hs m st → hs.drop m = rest → m ≤ hs.length →
      ∃ st2, buildLoop pc st rest = some st2 ∧ LoopInv base pc c hs hs.length st2
  | [], m, st, hinv, hdrop, hm => by
    have : m = hs.length := by
      have := List.drop_eq_nil_iff.mp hdrop
      omega
    subst this
    exact ⟨st, rfl, hinv⟩
  | (key, e) :: rest, m, st, hinv, hdrop, _ => by
    have hmlt : m < hs.length := by
      rcases Nat.lt_or_ge m hs.length with h | h
      · exact h
      · rw [List.drop_eq_nil_iff.mpr h] at hdrop; cases hdrop
    have hget : hs[m]? = some (key, e) := by
      have := List.getElem?_drop hs m 0
      rw [hdrop] at this
      simpa using this.symm
    have hmem : (key, e) ∈ hs := List.getElem?_mem hget
    obtain ⟨st1, h1, hinv1⟩ := addHeading_inv base pc c hs m st key e hinv hget (hlevel _ hmem)
    have hdrop1 : hs.drop (m + 1) = rest := by
      have := congrArg (List.drop 1) hdrop
      simpa [List.drop_drop, Nat.add_comm] using this
    obtain ⟨st2, h2, hinv2⟩ := buildLoop_inv base pc c hs hlevel rest (m + 1) st1 hinv1 hdrop1 hmlt
    exact ⟨st2, by simp only [buildLoop, h1]; exact h2, hinv2⟩

theorem LoopInv.init (base : Heap) (pc : Int) (c : Nat) (hs : List (HeadingKey × QWebElement)) :
    LoopInv base pc c hs 0
      { items := base ++ [OutlineItem.fresh], anchorCounter := c, levelStack := [0],
        old := some base.length } := by
  refine ⟨by simp, by simp, ?_, ?_, ?_, ?_, ?_, rfl⟩
  · intro p hp
    exact List.getElem?_append_left hp
  · exact ⟨OutlineItem.fresh, by simp, rfl, rfl, rfl, rfl, rfl⟩
  · intro i hi
    exact absurd hi (Nat.not_lt_zero i)
  · intro p it hp hbp
    simp only [List.range_zero, List.filter_nil, List.map_nil]
    rcases Nat.lt_or_ge base.length p with h | h
    · rw [List.getElem?_eq_none (by simp; omega)] at hp
      cases hp
    · have : p = base.length := by omega
      subst this
      simp at hp
      rw [← hp]
      rfl
  · simp [ChainOK]

/-- The tree builder succeeds on levels of at least one, and its final state
satisfies the loop invariant for the whole heading sequence. -/
theorem buildTree_inv (base : Heap) (pc : Int) (c : Nat) (hs : List (HeadingKey × QWebElement))
    (hlevel : ∀ h, h ∈ hs → 1 ≤ headingLevel h.2) :
    ∃ st, buildTree base pc c hs = some (st, base.length) ∧
      LoopInv base pc c hs hs.length st := by
  obtain ⟨st, h1, h2⟩ := buildLoop_inv base pc c hs hlevel hs 0 _ (LoopInv.init base pc c hs)
    rfl (Nat.zero_le _)
  exact ⟨st, by simp only [buildTree, h1], h2⟩

theorem headingLevel_eq (e : QWebElement) (h : 1 ≤ e.tagNumber ∧ e.tagNumber ≤ 9) :
    headingLevel e = e.tagNumber.toNat := by
  unfold headingLevel
  rw [Int.emod_eq_of_lt (by omega) (by norm_num; omega)]

theorem headingLevel_pos (e : QWebElement) (h : 1 ≤ e.tagNumber ∧ e.tagNumber ≤ 9) :
    1 ≤ headingLevel e := by
  rw [headingLevel_eq e h]
  omega

/-- C1: the parent of the node created for heading `i` is the node of the
nearest preceding heading of strictly smaller level, and the new root when no
preceding heading has a smaller level.  The loop does not fail on levels in
1..9; heading `i` lives at `root + 1 + i`, where `root` is the new root. -/
theorem addWebPage_nesting (items : Heap) (pc : Int) (c : Nat)
    (headings : List (HeadingKey × QWebElement))
    (hlevel : ∀ h, h ∈ headings → 1 ≤ h.2.tagNumber ∧ h.2.tagNumber ≤ 9) :
    ∃ st root, buildTree items pc c headings = some (st, root) ∧
      ∀ i, i < headings.length →
        ∃ it, st.items[root + 1 + i]? = some it ∧
          some it.element = (headings[i]?).map (fun h => h.2) ∧
          ((it.parent = some root ∧
              ∀ j, j < i → levelAt headings i ≤ levelAt headings j) ∨
           (∃ j, j < i ∧ it.parent = some (root + 1 + j) ∧
              levelAt headings j < levelAt headings i ∧
              ∀ k, j < k → k < i → levelAt headings i ≤ levelAt headings k)) := by
  obtain ⟨st, h1, hinv⟩ := buildTree_inv items pc c headings
    (fun h hh => headingLevel_pos h.2 (hlevel h hh))
  refine ⟨st, items.length, h1, ?_⟩
  intro i hi
  obtain ⟨it, h, h2, h3, _, _, h6, _, h8⟩ := hinv.node i hi
  exact ⟨it, h2, by rw [h3, h6]; rfl, h8⟩

theorem sampleHeadings_levels :
    ∀ h, h ∈ sampleHeadings → 1 ≤ h.2.tagNumber ∧ h.2.tagNumber ≤ 9 := by
  intro h hh
  simp only [sampleHeadings, List.mem_cons, List.mem_singleton, List.not_mem_nil, or_false] at hh
  rcases hh with rfl | rfl | rfl | rfl | rfl <;> decide

/-- Witness of C1 on the levels `[1,2,3,2,1]`: the shape is
root -> (h1a -> (h2a -> (h3a), h2b), h1b). -/
theorem addWebPage_nesting_witness :
    (buildTree [] 0 0 sampleHeadings).map
        (fun r => (r.2, r.1.items.map (fun it => (it.value, it.parent, it.children)))) =
      some (0, [("", none, [1, 5]), ("h1a", some 0, [2, 4]), ("h2a", some 1, [3]),
        ("h3a", some 2, []), ("h2b", some 1, []), ("h1b", some 0, [])]) ∧
    ∃ st root, buildTree [] 0 0 sampleHeadings = some (st, root) ∧
      ∀ i, i < sampleHeadings.length →
        ∃ it, st.items[root + 1 + i]? = some it ∧
          some it.element = (sampleHeadings[i]?).map (fun h => h.2) ∧
          ((it.parent = some root ∧
              ∀ j, j < i → levelAt sampleHeadings i ≤ levelAt sampleHeadings j) ∨
           (∃ j, j < i ∧ it.parent = some (root + 1 + j) ∧
              levelAt sampleHeadings j < levelAt sampleHeadings i ∧
              ∀ k, j < k → k < i → levelAt sampleHeadings i ≤ levelAt sampleHeadings k)) :=
  ⟨by decide, addWebPage_nesting [] 0 0 sampleHeadings sampleHeadings_levels⟩

theorem filter_or_split {α : Type} (A B : α → Bool) :
    ∀ (l : List α), l.Pairwise (fun a b => ¬ (B a = true ∧ A b = true)) →
      (∀ a, a ∈ l → ¬ (A a = true ∧ B a = true)) →
      l.filter (fun a => A a || B a) = l.filter A ++ l.filter B
  | [], _, _ => rfl
  | a :: l, hp, hd => by
    obtain ⟨h1, h2⟩ := List.pairwise_cons.mp hp
    have ih := filter_or_split A B l h2 (fun b hb => hd b (List.mem_cons_of_mem a hb))
    have hda := hd a (List.mem_cons_self a l)
    cases hA : A a <;> cases hB : B a
    · simp [List.filter_cons, hA, hB, ih]
    · have hnil : l.filter A = [] := by
        rw [List.filter_eq_nil_iff]
        intro b hb hAb
        exact h1 b hb ⟨hB, hAb⟩
      simp [List.filter_cons, hA, hB, ih, hnil]
    · simp [List.filter_cons, hA, hB, ih]
    · exact absurd ⟨hA, hB⟩ hda

theorem preorder_nil (items : Heap) (fuel : Nat) : preorder items fuel [] = some [] := by
  cases fuel <;> rfl

/-- In a store whose parent positions `P` (0 for the root, `j + 1` for heading
`j`) follow the nearest-smaller rule and whose child lists collect the
headings by parent in ascending order, the traversal from the pending nodes
`k, k+1, ...` visits the headings in index order. -/
theorem preorder_range (items : Heap) (r n : Nat) (lv : Nat → Nat) (P : Nat → Nat)
    (hns : ∀ i, i < n → (P i = 0 ∧ ∀ j, j < i → lv i ≤ lv j) ∨
      (∃ j, j < i ∧ P i = j + 1 ∧ lv j < lv i ∧ ∀ k, j < k → k < i → lv i ≤ lv k))
    (hkids : ∀ k, k < n → ∃ it, items[r + 1 + k]? = some it ∧
      it.children = ((List.range n).filter (fun j => decide (P j = k + 1))).map
        (fun j => r + 1 + j)) :
    ∀ (d k fuel : Nat), k + d = n → d ≤ fuel →
      preorder items fuel
        (((List.range' k d).filter (fun j => decide (P j ≤ k))).map (fun j => r + 1 + j)) =
      some ((List.range' k d).map (fun j => r + 1 + j))
  | 0, k, fuel, _, _ => by simp [preorder_nil]
  | d + 1, k, 0, _, hf => by omega
  | d + 1, k, fuel + 1, hk, hf => by
    have hPle : ∀ j, j < n → P j ≤ j := by
      intro j hj
      rcases hns j hj with ⟨h, _⟩ | ⟨j0, h0, h, _⟩ <;> omega
    have hPk : P k ≤ k := hPle k (by omega)
    obtain ⟨it, hit, hch⟩ := hkids k (by omega)
    have hsplit : List.range n = List.range' 0 (k + 1) ++ List.range' (k + 1) d := by
      rw [List.range_eq_range']
      have := List.range'_append_1 0 (k + 1) d
      simp only [Nat.zero_add] at this
      rw [this]
      congr 1
      omega
    have hch2 : it.children =
        ((List.range' (k + 1) d).filter (fun j => decide (P j = k + 1))).map
          (fun j => r + 1 + j) := by
      rw [hch, hsplit, List.filter_append]
      have : (List.range' 0 (k + 1)).filter (fun j => decide (P j = k + 1)) = [] := by
        rw [List.filter_eq_nil_iff]
        intro j hj
        have hj2 := List.mem_range'_1.mp hj
        have := hPle j (by omega)
        simp only [decide_eq_true_eq]
        omega
      rw [this, List.nil_append]
    have hor : (List.range' (k + 1) d).filter (fun j => decide (P j ≤ k + 1)) =
        (List.range' (k + 1) d).filter (fun j => decide (P j = k + 1)) ++
        (List.range' (k + 1) d).filter (fun j => decide (P j ≤ k)) := by
      rw [← filter_or_split]
      · apply List.filter_congr
        intro j _
        by_cases h1 : P j = k + 1 <;> by_cases h2 : P j ≤ k <;> simp [h1, h2] <;> omega
      · refine List.Pairwise.imp_of_mem ?_ (List.pairwise_lt_range' (k + 1) d)
        intro a b ha hb hab hAB
        have ha2 := List.mem_range'_1.mp ha
        have hb2 := List.mem_range'_1.mp hb
        simp only [decide_eq_true_eq] at hAB
        obtain ⟨hBa, hAb⟩ := hAB
        have hlb : lv k < lv b ∧ lv b ≤ lv a := by
          rcases hns b (by omega) with ⟨h, _⟩ | ⟨j0, _, h, h3, h4⟩
          · omega
          · have : j0 = k := by omega
            subst this
            exact ⟨h3, h4 a (by omega) hab⟩
        have hla : lv a ≤ lv k := by
          rcases hns a (by omega) with ⟨_, h⟩ | ⟨j0, _, h, _, h4⟩
          · exact h k (by omega)
          · exact h4 k (by omega) (by omega)
        omega
      · intro a _ h
        simp only [decide_eq_true_eq] at h
        omega
    rw [List.range'_succ, List.filter_cons]
    simp only [hPk, decide_True, if_true, List.map_cons]
    rw [preorder, hit]
    simp only
    rw [hch2, ← List.map_append, ← hor]
    rw [preorder_range items r n lv P hns hkids d (k + 1) fuel (by omega) (by omega)]
    rfl

theorem LoopInv.parentAt_eq (base : Heap) (pc : Int) (c : Nat)
    (hs : List (HeadingKey × QWebElement)) (m : Nat) (st : BuildState)
    (hinv : LoopInv base pc c hs m st) (j : Nat) (hj : j < m) :
    parentAt st.items (base.length + 1 + j) =
        some (some (base.length + parentPos st.items base.length j)) ∧
      ((parentPos st.items base.length j = 0 ∧ ∀ i, i < j → levelAt hs j ≤ levelAt hs i) ∨
       (∃ i, i < j ∧ parentPos st.items base.length j = i + 1 ∧ levelAt hs i < levelAt hs j ∧
          ∀ k, i < k → k < j → levelAt hs j ≤ levelAt hs k)) := by
  obtain ⟨it, h, h1, _, _, _, _, _, h7⟩ := hinv.node j hj
  have hp : parentAt st.items (base.length + 1 + j) = some it.parent := by
    simp [parentAt, h1]
  rcases h7 with ⟨h8, h9⟩ | ⟨i, hi, h8, h9, h10⟩
  · rw [h8] at hp
    have : parentPos st.items base.length j = 0 := by simp [parentPos, hp]
    rw [this]
    exact ⟨hp, Or.inl ⟨rfl, h9⟩⟩
  · rw [h8] at hp
    have : parentPos st.items base.length j = i + 1 := by
      simp only [parentPos, hp]
      omega
    rw [this]
    refine ⟨?_, Or.inr ⟨i, hi, rfl, h9, h10⟩⟩
    rw [hp]
    congr 2
    omega

theorem LoopInv.children_eq (base : Heap) (pc : Int) (c : Nat)
    (hs : List (HeadingKey × QWebElement)) (m : Nat) (st : BuildState)
    (hinv : LoopInv base pc c hs m st) (q : Nat) (it : OutlineItem)
    (hit : st.items[base.length + q]? = some it) :
    it.children = ((List.range m).filter
      (fun j => decide (parentPos st.items base.length j = q))).map
        (fun j => base.length + 1 + j) := by
  rw [hinv.kids _ it hit (by omega)]
  congr 1
  apply List.filter_congr
  intro j hj
  have := (LoopInv.parentAt_eq base pc c hs m st hinv j (List.mem_range.mp hj)).1
  rw [this]
  by_cases h : parentPos st.items base.length j = q
  · simp [h]
  · simp [h]

/-- C2: the pre-order traversal of the tree under the new root, root excluded,
yields the headings in exactly the input order: the visited nodes carry the
texts and elements of the headings, one after the other.  Fuel equal to the
number of headings suffices. -/
theorem addWebPage_preorder (items : Heap) (pc : Int) (c : Nat)
    (headings : List (HeadingKey × QWebElement))
    (hlevel : ∀ h, h ∈ headings → 1 ≤ h.2.tagNumber ∧ h.2.tagNumber ≤ 9) :
    ∃ st root rootItem, buildTree items pc c headings = some (st, root) ∧
      st.items[root]? = some rootItem ∧
      ∀ fuel, headings.length ≤ fuel →
        ∃ ps, preorder st.items fuel rootItem.children = some ps ∧
          ps.map (fun p => (st.items[p]?).map (fun it => (it.value, it.element))) =
            headings.map (fun h => some (h.2.plainText, h.2)) := by
  obtain ⟨st, h1, hinv⟩ := buildTree_inv items pc c headings
    (fun h hh => headingLevel_pos h.2 (hlevel h hh))
  obtain ⟨rootItem, hroot, _⟩ := hinv.root
  refine ⟨st, items.length, rootItem, h1, hroot, ?_⟩
  intro fuel hfuel
  refine ⟨(List.range' 0 headings.length).map (fun j => items.length + 1 + j), ?_, ?_⟩
  · have hch := LoopInv.children_eq items pc c headings _ st hinv 0 rootItem hroot
    rw [hch, List.range_eq_range']
    have hcongr : (List.range' 0 headings.length).filter
          (fun j => decide (parentPos st.items items.length j = 0)) =
        (List.range' 0 headings.length).filter
          (fun j => decide (parentPos st.items items.length j ≤ 0)) := by
      apply List.filter_congr
      intro j _
      simp
    rw [hcongr]
    refine preorder_range st.items items.length headings.length (levelAt headings)
      (parentPos st.items items.length) ?_ ?_ headings.length 0 fuel (by omega) hfuel
    · intro i hi
      exact (LoopInv.parentAt_eq items pc c headings _ st hinv i hi).2
    · intro k hk
      obtain ⟨it, h, h2, _⟩ := hinv.node k hk
      exact ⟨it, h2, LoopInv.children_eq items pc c headings _ st hinv (k + 1) it
        (by rw [← h2]; congr 1; omega)⟩
  · apply List.ext_getElem?
    intro i
    rcases Nat.lt_or_ge i headings.length with hi | hi
    · obtain ⟨it, h, h2, h3, _, h5, h6, _⟩ := hinv.node i hi
      have h4 : headings[i] = h := by
        rw [List.getElem?_eq_getElem hi] at h3
        exact Option.some.inj h3
      simp [List.getElem?_map, List.getElem?_range' , hi, h2, h4, h5, h6]
    · simp [List.getElem?_eq_none, hi]

theorem digitValue36_digit36 : ∀ d, d < 36 → digitValue36 (digit36 d) = d := by
  decide

theorem value36_number36Core :
    ∀ (fuel n : Nat) (ds : List Char), n < fuel →
      value36 0 (number36Core fuel n ds) = value36 n ds
  | 0, n, _, h => absurd h (Nat.not_lt_zero n)
  | fuel + 1, n, ds, h => by
    have hd := digitValue36_digit36 (n % 36) (Nat.mod_lt n (by decide))
    by_cases hq : n / 36 = 0
    · simp only [number36Core, hq, if_true, value36, List.foldl_cons, hd]
      congr 1
      have := Nat.div_add_mod n 36
      omega
    · simp only [number36Core, hq, if_false]
      rw [value36_number36Core fuel (n / 36) _ (by omega)]
      simp only [value36, List.foldl_cons, hd]
      congr 1
      have := Nat.div_add_mod n 36
      omega

theorem number36_injective (a b : Nat) (h : number36 a = number36 b) : a = b := by
  have h2 : number36Core (a + 1) a [] = number36Core (b + 1) b [] := by
    exact congrArg String.data h
  have ha := value36_number36Core (a + 1) a [] (Nat.lt_succ_self a)
  have hb := value36_number36Core (b + 1) b [] (Nat.lt_succ_self b)
  rw [h2, hb] at ha
  simpa [value36] using ha.symm

theorem anchorName_injective (a b : Nat) (h : anchorName a = anchorName b) : a = b := by
  apply number36_injective
  have h2 := congrArg String.data h
  simp only [anchorName, String.data_append] at h2
  exact String.ext (List.append_cancel_left h2)

theorem anchorName_ne_empty (a : Nat) : anchorName a ≠ "" := by
  intro h
  have h2 := congrArg String.data h
  simp [anchorName, String.data_append] at h2

theorem headingsInsert_mem (key : HeadingKey) (e : QWebElement) :
    ∀ (l : List (HeadingKey × QWebElement)) (h : HeadingKey × QWebElement),
      h ∈ headingsInsert key e l → h.2 = e ∨ h ∈ l
  | [], h, hh => by
    simp only [headingsInsert, List.mem_singleton] at hh
    exact Or.inl (by rw [hh])
  | (k, v) :: rest, h, hh => by
    simp only [headingsInsert] at hh
    split at hh
    · rcases List.mem_cons.mp hh with h1 | h1
      · exact Or.inl (by rw [h1])
      · exact Or.inr h1
    · split at hh
      · rcases List.mem_cons.mp hh with h1 | h1
        · exact Or.inr (by rw [h1]; exact List.mem_cons_self _ _)
        · rcases headingsInsert_mem key e rest h h1 with h2 | h2
          · exact Or.inl h2
          · exact Or.inr (List.mem_cons_of_mem _ h2)
      · rcases List.mem_cons.mp hh with h1 | h1
        · exact Or.inl (by rw [h1])
        · exact Or.inr (List.mem_cons_of_mem _ h1)

theorem collectHeadings_mem (wp : QWebPrinter) (found : List QWebElement)
    (h : HeadingKey × QWebElement) (hh : h ∈ collectHeadings wp found) : h.2 ∈ found := by
  unfold collectHeadings at hh
  have key : ∀ (fs : List QWebElement) (acc : List (HeadingKey × QWebElement)),
      h ∈ fs.foldl (fun headings e =>
        let location := wp.elementLocation e
        headingsInsert (location.1, (location.2.y, location.2.x)) e headings) acc →
      h.2 ∈ fs ∨ h ∈ acc := by
    intro fs
    induction fs with
    | nil => intro acc h1; exact Or.inr h1
    | cons f fs ih =>
      intro acc h1
      rcases ih _ h1 with h2 | h2
      · exact Or.inl (List.mem_cons_of_mem _ h2)
      · rcases headingsInsert_mem _ _ _ _ h2 with h3 | h3
        · exact Or.inl (by rw [h3]; exact List.mem_cons_self _ _)
        · exact Or.inr h3
  rcases key found [] hh with h1 | h1
  · exact h1
  · cases h1

/-- What one call of `addWebPage` does to the store and to the fields of
`OutlinePrivate`, for heading elements with tags `h1` to `h9`. -/
theorem addWebPage_spec (o : Outline) (wp : QWebPrinter) (found : List QWebElement)
    (hlevel : ∀ e, e ∈ found → 1 ≤ e.tagNumber ∧ e.tagNumber ≤ 9) :
    ∃ o2 st, o.addWebPage wp found = some o2 ∧
      LoopInv o.items o.d.pageCount o.d.anchorCounter (collectHeadings wp found)
        (collectHeadings wp found).length st ∧
      o2.items = st.items ∧
      o2.d = { o.d with
        anchorCounter := o.d.anchorCounter + (collectHeadings wp found).length
        pageCount := wrapInt (o.d.pageCount + wp.pageCount) } := by
  obtain ⟨st, h1, hinv⟩ := buildTree_inv o.items o.d.pageCount o.d.anchorCounter
    (collectHeadings wp found)
    (fun h hh => headingLevel_pos h.2 (hlevel h.2 (collectHeadings_mem wp found h hh)))
  refine ⟨{ items := st.items
            d := { o.d with
              anchorCounter := st.anchorCounter
              pageCount := wrapInt (o.d.pageCount + wp.pageCount) } }, st,
    by simp only [Outline.addWebPage, h1], hinv, rfl, ?_⟩
  simp only [hinv.ctr]

theorem LoopInv.items_eq (base : Heap) (pc : Int) (c : Nat)
    (hs : List (HeadingKey × QWebElement)) (m : Nat) (st : BuildState)
    (hinv : LoopInv base pc c hs m st) :
    st.items = base ++ st.items.drop base.length := by
  have hlen := hinv.len
  have htake : st.items.take base.length = base := by
    apply List.ext_getElem?
    intro p
    rcases Nat.lt_or_ge p base.length with hp | hp
    · rw [List.getElem?_take_of_lt hp]
      exact hinv.frame p hp
    · rw [List.getElem?_eq_none (by simp; omega), List.getElem?_eq_none hp]
  conv_lhs => rw [← List.take_append_drop base.length st.items, htake]

theorem LoopInv.anchors_eq (base : Heap) (pc : Int) (c : Nat)
    (hs : List (HeadingKey × QWebElement)) (m : Nat) (st : BuildState)
    (hinv : LoopInv base pc c hs m st) :
    (st.items.drop base.length).map (fun it => it.anchor) =
      "" :: (List.range m).map (fun k => anchorName (c + k)) := by
  have hlen := hinv.len
  apply List.ext_getElem?
  intro q
  rw [List.getElem?_map, List.getElem?_drop]
  cases q with
  | zero =>
    obtain ⟨it, h1, _, _, _, _, h6⟩ := hinv.root
    simp [h1, h6]
  | succ i =>
    rcases Nat.lt_or_ge i m with hi | hi
    · obtain ⟨it, h, h1, _, _, _, _, h6, _⟩ := hinv.node i hi
      have : base.length + (i + 1) = base.length + 1 + i := by omega
      rw [this, h1]
      simp [List.getElem?_range hi, h6]
    · rw [List.getElem?_eq_none (by omega)]
      simp [List.getElem?_eq_none, hi]

theorem headingCount_cons (wp : QWebPrinter) (found : List QWebElement)
    (rest : List (QWebPrinter × List QWebElement)) :
    headingCount ((wp, found) :: rest) = (collectHeadings wp found).length + headingCount rest := by
  simp [headingCount]

/-- What a sequence of calls of `addWebPage` does: the old store is kept and
extended by the created items, the counters advance by the numbers of headings
and pages (the page count in `int`), the settings and the list of document
roots stay as they are, and
the non-empty anchors of the created items are the anchor names of the
consecutive counter values. -/
theorem addWebPages_spec :
    ∀ (docs : List (QWebPrinter × List QWebElement)) (o : Outline),
      (∀ doc, doc ∈ docs → ∀ e, e ∈ doc.2 → 1 ≤ e.tagNumber ∧ e.tagNumber ≤ 9) →
      ∃ o2 created, o.addWebPages docs = some o2 ∧ o2.items = o.items ++ created ∧
        o2.d = { o.d with
          anchorCounter := o.d.anchorCounter + headingCount docs
          pageCount := pageCountAfter o.d.pageCount docs } ∧
        (created.map (fun it => it.anchor)).filter (fun a => decide (a ≠ "")) =
          (List.range (headingCount docs)).map (fun k => anchorName (o.d.anchorCounter + k))
  | [], o, _ => ⟨o, [], rfl, by simp, by simp [headingCount, pageCountAfter],
      by simp [headingCount]⟩
  | (wp, found) :: rest, o, hlevel => by
    obtain ⟨o1, st, h1, hinv, h2, h3⟩ := addWebPage_spec o wp found
      (hlevel (wp, found) (List.mem_cons_self _ _))
    obtain ⟨o2, created, h4, h5, h6, h7⟩ := addWebPages_spec rest o1
      (fun doc hd => hlevel doc (List.mem_cons_of_mem _ hd))
    refine ⟨o2, st.items.drop o.items.length ++ created, ?_, ?_, ?_, ?_⟩
    · simp only [Outline.addWebPages, h1]
      exact h4
    · rw [h5, h2, ← List.append_assoc, ← LoopInv.items_eq _ _ _ _ _ _ hinv]
    · rw [h6, h3, headingCount_cons]
      simp only [pageCountAfter, List.foldl_cons, OutlinePrivate.mk.injEq, true_and, and_true]
      omega
    · rw [List.map_append, List.filter_append, h7, LoopInv.anchors_eq _ _ _ _ _ _ hinv, h3,
        headingCount_cons, List.range_add, List.map_append, List.map_map]
      congr 1
      · rw [List.filter_cons]
        simp only [ne_eq, not_true_eq_false, decide_False, Bool.false_eq_true, if_false]
        rw [List.filter_eq_self]
        intro a ha
        obtain ⟨k, _, hk⟩ := List.mem_map.mp ha
        rw [← hk]
        simpa using anchorName_ne_empty _
      · apply List.map_congr_left
        intro k _
        simp only [Function.comp]
        congr 1
        omega

/-- Witness of C2 on the levels `[1,2,3,2,1]`: the traversal from the children
of the root visits the pointers 1 to 5, which carry the five headings. -/
theorem addWebPage_preorder_witness :
    (buildTree [] 0 0 sampleHeadings).map
        (fun r => (preorder r.1.items 5 [1, 5]).map
          (fun ps => ps.map (fun p => (r.1.items[p]?).map (fun it => it.value)))) =
      some (some [some "h1a", some "h2a", some "h3a", some "h2b", some "h1b"]) ∧
    ∃ st root rootItem, buildTree [] 0 0 sampleHeadings = some (st, root) ∧
      st.items[root]? = some rootItem ∧
      ∀ fuel, sampleHeadings.length ≤ fuel →
        ∃ ps, preorder st.items fuel rootItem.children = some ps ∧
          ps.map (fun p => (st.items[p]?).map (fun it => (it.value, it.element))) =
            sampleHeadings.map (fun h => some (h.2.plainText, h.2)) :=
  ⟨by decide, addWebPage_preorder [] 0 0 sampleHeadings sampleHeadings_levels⟩

theorem sampleDocs_levels :
    ∀ doc, doc ∈ sampleDocs → ∀ e, e ∈ doc.2 → 1 ≤ e.tagNumber ∧ e.tagNumber ≤ 9 := by
  intro doc hd e he
  simp only [sampleDocs, List.mem_cons, List.mem_singleton, List.not_mem_nil, or_false] at hd
  rcases hd with rfl | rfl
  · simp only [sampleFound, List.mem_cons, List.mem_singleton, List.not_mem_nil, or_false] at he
    rcases he with rfl | rfl | rfl | rfl | rfl <;> decide
  · simp only [sampleFoundB, List.mem_cons, List.mem_singleton, List.not_mem_nil, or_false] at he
    rcases he with rfl | rfl <;> decide

/-- C3 (the code departs from it): `addWebPage` does not touch
`documentOutlines`.  Whatever the call, the list after it is the list before
it, and on a collection without documents a call for a document without
headings leaves the list empty, of length 0 and not 1. -/
theorem addWebPage_documentOutlines_unchanged :
    (∀ (o : Outline) (wp : QWebPrinter) (found : List QWebElement),
      (o.addWebPage wp found).map (fun o2 => o2.d.documentOutlines) =
        (o.addWebPage wp found).map (fun _ => o.d.documentOutlines)) ∧
    (sampleOutline.addWebPage (samplePrinter 0 3) []).map (fun o2 => o2.d.documentOutlines) =
      some [] ∧
    (sampleOutline.addWebPage (samplePrinter 0 3) sampleFound).map
      (fun o2 => (o2.d.documentOutlines, o2.items.length)) = some ([], 6) := by
  refine ⟨?_, by decide, by decide⟩
  intro o wp found
  simp only [Outline.addWebPage]
  cases hb : buildTree o.items o.d.pageCount o.d.anchorCounter (collectHeadings wp found) with
  | none => rfl
  | some r => rfl

/-- C4: over any sequence of calls of `addWebPage` on one collection, the items
created for headings (the created items with a non-empty anchor; a root has
the empty anchor) carry, in creation order, the anchor names of the counter
values `anchorCounter`, `anchorCounter + 1`, ...; these strings are pairwise
distinct, and the counter ends advanced by one per created heading item. -/
theorem anchor_uniqueness (o : Outline) (docs : List (QWebPrinter × List QWebElement))
    (hlevel : ∀ doc, doc ∈ docs → ∀ e, e ∈ doc.2 → 1 ≤ e.tagNumber ∧ e.tagNumber ≤ 9) :
    ∃ o2 created, o.addWebPages docs = some o2 ∧ o2.items = o.items ++ created ∧
      o2.d.anchorCounter = o.d.anchorCounter + headingCount docs ∧
      (created.map (fun it => it.anchor)).filter (fun a => decide (a ≠ "")) =
        (List.range (headingCount docs)).map (fun k => anchorName (o.d.anchorCounter + k)) ∧
      ((created.map (fun it => it.anchor)).filter (fun a => decide (a ≠ ""))).Nodup := by
  obtain ⟨o2, created, h1, h2, h3, h4⟩ := addWebPages_spec docs o hlevel
  refine ⟨o2, created, h1, h2, by rw [h3], h4, ?_⟩
  rw [h4]
  refine List.Nodup.map ?_ (List.nodup_range _)
  intro a b hab
  have := anchorName_injective _ _ hab
  omega

/-- Witness of C4: document A with five headings, then document B with two
headings of the same texts. -/
theorem anchor_uniqueness_witness :
    (sampleOutline.addWebPages sampleDocs).map
        (fun o2 => (o2.items.map (fun it => it.anchor), o2.d.anchorCounter)) =
      some (["", "__WKANCHOR_0", "__WKANCHOR_1", "__WKANCHOR_2", "__WKANCHOR_3", "__WKANCHOR_4",
        "", "__WKANCHOR_5", "__WKANCHOR_6"], 7) ∧
    ∃ o2 created, sampleOutline.addWebPages sampleDocs = some o2 ∧
      o2.items = sampleOutline.items ++ created ∧
      o2.d.anchorCounter = sampleOutline.d.anchorCounter + headingCount sampleDocs ∧
      (created.map (fun it => it.anchor)).filter (fun a => decide (a ≠ "")) =
        (List.range (headingCount sampleDocs)).map
          (fun k => anchorName (sampleOutline.d.anchorCounter + k)) ∧
      ((created.map (fun it => it.anchor)).filter (fun a => decide (a ≠ ""))).Nodup :=
  ⟨by decide, anchor_uniqueness sampleOutline sampleDocs sampleDocs_levels⟩

theorem qPairLess_eq_of_not (a b : HeadingKey) (h1 : qPairLess a b = false)
    (h2 : qPairLess b a = false) : a = b := by
  obtain ⟨a1, a2, a3⟩ := a
  obtain ⟨b1, b2, b3⟩ := b
  simp only [qPairLess, Bool.or_eq_false_iff, Bool.and_eq_false_imp, decide_eq_false_iff_not,
    Bool.not_eq_true', decide_eq_true_eq, not_lt] at h1 h2
  obtain ⟨h11, h12⟩ := h1
  obtain ⟨h21, h22⟩ := h2
  have e1 : a1 = b1 := le_antisymm h21 h11
  subst e1
  have h13 := h12 (le_refl _)
  have h23 := h22 (le_refl _)
  have e2 : a2 = b2 := le_antisymm h23.1 h13.1
  subst e2
  have e3 : a3 = b3 := le_antisymm (h23.2 (le_refl _)) (h13.2 (le_refl _))
  subst e3
  rfl

theorem headingsInsert_key (wp : QWebPrinter) (e : QWebElement) :
    ∀ (l : List (HeadingKey × QWebElement)),
      (∀ h, h ∈ l → h.1 = headingKey wp h.2) →
      ∀ h, h ∈ headingsInsert (headingKey wp e) e l → h.1 = headingKey wp h.2
  | [], _, h, hh => by
    simp only [headingsInsert, List.mem_singleton] at hh
    rw [hh]
  | (k, v) :: rest, hl, h, hh => by
    simp only [headingsInsert] at hh
    split at hh
    · rcases List.mem_cons.mp hh with h1 | h1
      · rw [h1]
      · exact hl h h1
    · rename_i hlt1
      split at hh
      · rcases List.mem_cons.mp hh with h1 | h1
        · exact hl h (by rw [h1]; exact List.mem_cons_self _ _)
        · exact headingsInsert_key wp e rest
            (fun x hx => hl x (List.mem_cons_of_mem _ hx)) h h1
      · rename_i hlt2
        rcases List.mem_cons.mp hh with h1 | h1
        · rw [h1]
          have := qPairLess_eq_of_not (headingKey wp e) k (by simpa using hlt1)
            (by simpa using hlt2)
          exact this.symm
        · exact hl h (List.mem_cons_of_mem _ h1)

/-- Every entry of the `headings` map is filed under the key of its element. -/
theorem collectHeadings_key (wp : QWebPrinter) (found : List QWebElement)
    (h : HeadingKey × QWebElement) (hh : h ∈ collectHeadings wp found) :
    h.1 = headingKey wp h.2 := by
  unfold collectHeadings at hh
  have key : ∀ (fs : List QWebElement) (acc : List (HeadingKey × QWebElement)),
      (∀ x, x ∈ acc → x.1 = headingKey wp x.2) →
      ∀ x, x ∈ fs.foldl (fun headings e =>
        let location := wp.elementLocation e
        headingsInsert (location.1, (location.2.y, location.2.x)) e headings) acc →
      x.1 = headingKey wp x.2 := by
    intro fs
    induction fs with
    | nil => intro acc hacc x hx; exact hacc x hx
    | cons f fs ih =>
      intro acc hacc x hx
      exact ih _ (headingsInsert_key wp f acc hacc) x hx
  exact key found [] (fun x hx => by cases hx) h hh

theorem emitted_cut (depth : Int) :
    ∀ (f : Forest) (level : Int), level + 1 > depth → emitted depth level f = []
  | Forest.nil, _, _ => rfl
  | Forest.cons _ _ _ _ next, level, h => by
    simp only [emitted, h, if_true, List.nil_append]
    exact emitted_cut depth next level h

/-- The loop of `outlineChildren` over the children `ps` of an item, which
form the forest `f`, appends the events `emitted` to the printer. -/
theorem outlineChildren_loop (d : OutlinePrivate) (items : Heap) :
    ∀ (f : Forest) (ps : List Nat) (fuel : Nat) (printer : QPrinter) (level : Int),
      represents items ps f = true → f.height ≤ fuel →
      ¬ level + 1 > d.settings.outlineDepth →
      ps.foldlM
          (fun printer i =>
            match items[i]? with
            | none => none
            | some child =>
              match OutlinePrivate.outlineChildren d items fuel i
                  (printer.beginSectionOutline child.value child.anchor) (level + 1) with
              | none => none
              | some printer => some printer.endSectionOutline)
          printer =
        some (printer ++ emitted d.settings.outlineDepth level f)
  | Forest.nil, [], _, printer, _, _, _, _ => by simp [emitted]
  | Forest.nil, _ :: _, _, _, _, h, _, _ => by simp [represents] at h
  | Forest.cons _ _ _ _ _, [], _, _, _, h, _, _ => by simp [represents] at h
  | Forest.cons value anchor element children next, p :: ps, fuel, printer, level, h, hf, hl => by
    simp only [represents] at h
    cases hit : items[p]? with
    | none => simp [hit] at h
    | some it =>
      simp only [hit, Bool.and_eq_true, decide_eq_true_eq] at h
      obtain ⟨⟨⟨⟨hv, ha⟩, _⟩, hkids⟩, hnext⟩ := h
      simp only [Forest.height] at hf
      obtain ⟨fuel2, hfuel2⟩ : ∃ fuel2, fuel = fuel2 + 1 := ⟨fuel - 1, by omega⟩
      have hchild : OutlinePrivate.outlineChildren d items fuel p
          (printer.beginSectionOutline it.value it.anchor) (level + 1) =
          some (printer.beginSectionOutline it.value it.anchor ++
            emitted d.settings.outlineDepth (level + 1) children) := by
        rw [hfuel2, OutlinePrivate.outlineChildren]
        by_cases hcut : level + 1 + 1 > d.settings.outlineDepth
        · simp only [hcut, if_true, emitted_cut _ children _ hcut, List.append_nil]
        · simp only [hcut, if_false, hit]
          exact outlineChildren_loop d items children it.children fuel2 _ (level + 1) hkids
            (by omega) hcut
      rw [List.foldlM_cons]
      simp only [hit, hchild, Option.bind_eq_bind, Option.some_bind]
      rw [outlineChildren_loop d items next ps fuel _ level hnext (by omega) hl]
      simp only [emitted, hl, if_false, QPrinter.endSectionOutline, QPrinter.beginSectionOutline,
        hv, ha, List.append_assoc, List.cons_append, List.nil_append]

/-- The method `printOutline`, with the outline enabled, appends the events
`emittedRoots` of the forest of document roots to the printer. -/
theorem printOutline_eq (o : Outline) (roots : Forest) (fuel : Nat) (printer : QPrinter)
    (hrep : represents o.items o.d.documentOutlines roots = true)
    (hen : o.d.settings.outline = true) (hfuel : roots.height ≤ fuel) :
    o.printOutline fuel printer =
      some (printer ++ emittedRoots o.d.settings.outlineDepth roots) := by
  simp only [Outline.printOutline, hen, Bool.not_true, Bool.false_eq_true, if_false]
  have key : ∀ (f : Forest) (ps : List Nat) (printer : QPrinter),
      represents o.items ps f = true → f.height ≤ fuel →
      ps.foldlM (fun printer i => o.d.outlineChildren o.items fuel i printer 0) printer =
        some (printer ++ emittedRoots o.d.settings.outlineDepth f) := by
    intro f
    induction f with
    | nil =>
      intro ps printer h _
      cases ps with
      | nil => simp [emittedRoots]
      | cons p ps => simp [represents] at h
    | cons value anchor element children next _ ih =>
      intro ps printer h hf
      cases ps with
      | nil => simp [represents] at h
      | cons p ps =>
        simp only [represents] at h
        cases hit : o.items[p]? with
        | none => simp [hit] at h
        | some it =>
          simp only [hit, Bool.and_eq_true, decide_eq_true_eq] at h
          obtain ⟨⟨_, hkids⟩, hnext⟩ := h
          simp only [Forest.height] at hf
          obtain ⟨fuel2, hfuel2⟩ : ∃ fuel2, fuel = fuel2 + 1 := ⟨fuel - 1, by omega⟩
          have hroot : o.d.outlineChildren o.items fuel p printer 0 =
              some (printer ++ emitted o.d.settings.outlineDepth 0 children) := by
            rw [hfuel2, OutlinePrivate.outlineChildren]
            by_cases hcut : (0 : Int) + 1 > o.d.settings.outlineDepth
            · simp only [hcut, if_true, emitted_cut _ children _ hcut, List.append_nil]
            · simp only [hcut, if_false, hit]
              exact outlineChildren_loop o.d o.items children it.children fuel2 _ 0 hkids
                (by omega) hcut
          rw [List.foldlM_cons]
          simp only [hroot, Option.bind_eq_bind, Option.some_bind]
          rw [ih ps _ hnext (by omega)]
          simp only [emittedRoots, List.append_assoc]
  exact key roots o.d.documentOutlines printer hrep hfuel

theorem beginsOf_append (a b : List OutlineEvent) :
    beginsOf (a ++ b) = beginsOf a ++ beginsOf b := by
  simp [beginsOf, List.filterMap_append]

theorem endCount_append (a b : List OutlineEvent) :
    endCount (a ++ b) = endCount a + endCount b := by
  simp [endCount, List.countP_append]

theorem listing_depth :
    ∀ (f : Forest) (k : Nat) (n : Nat × String × String × Forest), n ∈ f.listing k → k ≤ n.1
  | Forest.nil, _, _, h => by simp [Forest.listing] at h
  | Forest.cons _ _ _ children next, k, n, h => by
    simp only [Forest.listing, List.mem_cons, List.mem_append] at h
    rcases h with h | h | h
    · rw [h]
    · exact Nat.le_of_succ_le (listing_depth children (k + 1) n h)
    · exact listing_depth next k n h

theorem visible_cut (depth : Int) (f : Forest) (k : Nat) (h : ¬ (k : Int) < depth) :
    visible depth (f.listing k) = [] := by
  unfold visible
  rw [List.filter_eq_nil_iff]
  intro n hn
  have := listing_depth f k n hn
  simp only [decide_eq_true_eq]
  omega

/-- The begin events among `emitted` are the nodes of depth below the limit,
in pre-order, with their values and anchors. -/
theorem beginsOf_emitted (depth : Int) :
    ∀ (f : Forest) (k : Nat),
      beginsOf (emitted depth (k : Int) f) = titles (visible depth (f.listing k))
  | Forest.nil, _ => rfl
  | Forest.cons value anchor _ children next, k => by
    have ih1 := beginsOf_emitted depth children (k + 1)
    have ih2 := beginsOf_emitted depth next k
    simp only [emitted, Forest.listing, beginsOf_append]
    rw [ih2]
    by_cases hcut : (k : Int) + 1 > depth
    · have hk : ¬ (k : Int) < depth := by omega
      have hk1 : ¬ ((k + 1 : Nat) : Int) < depth := by push_cast; omega
      simp only [hcut, if_true, visible, List.filter_cons, hk, decide_False, Bool.false_eq_true,
        if_false, List.filter_append]
      have := visible_cut depth children (k + 1) hk1
      unfold visible at this
      rw [this]
      rfl
    · have hk : (k : Int) < depth := by omega
      simp only [hcut, if_false, visible, List.filter_cons, hk, decide_True, if_true,
        List.filter_append, titles, List.map_cons, List.map_append]
      have hcast : ((k + 1 : Nat) : Int) = (k : Int) + 1 := by push_cast; rfl
      rw [hcast] at ih1
      have hb : beginsOf (OutlineEvent.beginSection value anchor ::
          emitted depth ((k : Int) + 1) children ++ [OutlineEvent.endSection]) =
          (value, anchor) :: beginsOf (emitted depth ((k : Int) + 1) children) := by
        simp [beginsOf, List.filterMap_append, List.filterMap_cons]
      rw [hb, ih1]
      simp [titles, visible]

theorem beginsOf_emittedRoots (depth : Int) :
    ∀ (roots : Forest),
      beginsOf (emittedRoots depth roots) = titles (visible depth roots.underRoots)
  | Forest.nil => rfl
  | Forest.cons _ _ _ children next => by
    have ih := beginsOf_emittedRoots depth next
    have h0 := beginsOf_emitted depth children 0
    simp only [emittedRoots, Forest.underRoots, beginsOf_append, visible, List.filter_append,
      titles, List.map_append]
    simp only [visible, titles, Nat.cast_zero] at ih h0
    rw [ih, h0]

/-- C6: depth truncation.  With the outline enabled, `printOutline` returns,
and the `beginSectionOutline` calls it makes are, in pre-order, exactly the
nodes below the document roots whose depth is less than `outlineDepth` (the
children of a root have depth 0), each with the value and the anchor of its
node.  Fuel equal to the height of the forest suffices. -/
theorem printOutline_depth (o : Outline) (roots : Forest) (fuel : Nat) (printer : QPrinter)
    (hrep : represents o.items o.d.documentOutlines roots = true)
    (hen : o.d.settings.outline = true) (hfuel : roots.height ≤ fuel) :
    ∃ events, o.printOutline fuel printer = some (printer ++ events) ∧
      beginsOf events =
        (roots.underRoots.filter (fun n => decide ((n.1 : Int) < o.d.settings.outlineDepth))).map
          (fun n => (n.2.1, n.2.2.1)) :=
  ⟨emittedRoots o.d.settings.outlineDepth roots, printOutline_eq o roots fuel printer hrep hen hfuel,
    beginsOf_emittedRoots o.d.settings.outlineDepth roots⟩

/-- Witness of C6: `outlineDepth = 1` on a tree of depth 3 emits the two
children of the root and nothing else. -/
theorem printOutline_depth_witness :
    (sampleCollection 1).printOutline 4 [] =
      some [OutlineEvent.beginSection "h1a" "__WKANCHOR_0", OutlineEvent.endSection,
        OutlineEvent.beginSection "h1b" "__WKANCHOR_4", OutlineEvent.endSection] ∧
    ∃ events, (sampleCollection 1).printOutline 4 [] = some ([] ++ events) ∧
      beginsOf events =
        (sampleForest.underRoots.filter
          (fun n => decide ((n.1 : Int) < (sampleCollection 1).d.settings.outlineDepth))).map
          (fun n => (n.2.1, n.2.2.1)) :=
  ⟨by decide, printOutline_depth (sampleCollection 1) sampleForest 4 [] (by decide) rfl
    (by decide)⟩

theorem beginsOf_cons_begin (value anchor : String) (l : List OutlineEvent) :
    beginsOf (OutlineEvent.beginSection value anchor :: l) = (value, anchor) :: beginsOf l := by
  simp [beginsOf, List.filterMap_cons]

theorem beginsOf_cons_end (l : List OutlineEvent) :
    beginsOf (OutlineEvent.endSection :: l) = beginsOf l := by
  simp [beginsOf, List.filterMap_cons]

theorem endCount_cons_begin (value anchor : String) (l : List OutlineEvent) :
    endCount (OutlineEvent.beginSection value anchor :: l) = endCount l := by
  simp [endCount, List.countP_cons]

theorem endCount_cons_end (l : List OutlineEvent) :
    endCount (OutlineEvent.endSection :: l) = endCount l + 1 := by
  simp [endCount, List.countP_cons]

theorem Nested.nil : Nested [] := by
  constructor
  · intro n
    simp [endCount, beginsOf]
  · rfl

theorem Nested.append (a b : List OutlineEvent) (ha : Nested a) (hb : Nested b) :
    Nested (a ++ b) := by
  constructor
  · intro n
    rw [List.take_append_eq_append_take, endCount_append, beginsOf_append, List.length_append]
    exact Nat.add_le_add (ha.1 n) (hb.1 _)
  · rw [endCount_append, beginsOf_append, List.length_append, ha.2, hb.2]

theorem Nested.wrap (value anchor : String) (m : List OutlineEvent) (hm : Nested m) :
    Nested (OutlineEvent.beginSection value anchor :: m ++ [OutlineEvent.endSection]) := by
  constructor
  · intro n
    cases n with
    | zero => simp [endCount, beginsOf]
    | succ n =>
      rw [List.cons_append, List.take_succ_cons, endCount_cons_begin, beginsOf_cons_begin,
        List.take_append_eq_append_take, endCount_append, beginsOf_append, List.length_cons,
        List.length_append]
      have h1 := hm.1 n
      have h2 : endCount (List.take (n - m.length) [OutlineEvent.endSection]) ≤ 1 := by
        cases (n - m.length) with
        | zero => simp [endCount]
        | succ j => simp [endCount]
      omega
  · rw [List.cons_append, endCount_cons_begin, beginsOf_cons_begin, endCount_append,
      beginsOf_append, List.length_cons, List.length_append, hm.2]
    simp [endCount, beginsOf]

theorem Nested_emitted (depth : Int) :
    ∀ (f : Forest) (level : Int), Nested (emitted depth level f)
  | Forest.nil, _ => Nested.nil
  | Forest.cons value anchor _ children next, level => by
    simp only [emitted]
    apply Nested.append
    · by_cases hcut : level + 1 > depth
      · simp only [hcut, if_true]
        exact Nested.nil
      · simp only [hcut, if_false]
        exact Nested.wrap value anchor _ (Nested_emitted depth children (level + 1))
    · exact Nested_emitted depth next level

theorem Nested_emittedRoots (depth : Int) : ∀ (roots : Forest), Nested (emittedRoots depth roots)
  | Forest.nil => Nested.nil
  | Forest.cons _ _ _ children next =>
    Nested.append _ _ (Nested_emitted depth children 0) (Nested_emittedRoots depth next)

theorem titles_length (nodes : List (Nat × String × String × Forest)) :
    (titles nodes).length = nodes.length := by
  simp [titles]

/-- Every visible node has its begin event in `emitted`, at its pre-order
position, followed by the properly nested events of its visible descendants
and then by its end event. -/
theorem emitted_occurrence (depth : Int) :
    ∀ (f : Forest) (k idx : Nat) (n : Nat × String × String × Forest),
      (visible depth (f.listing k))[idx]? = some n →
      ∃ pre mid post,
        emitted depth (k : Int) f =
          pre ++ OutlineEvent.beginSection n.2.1 n.2.2.1 ::
            (mid ++ OutlineEvent.endSection :: post) ∧
        (beginsOf pre).length = idx ∧ Nested mid ∧
        beginsOf mid = titles (visible depth (n.2.2.2.listing (n.1 + 1)))
  | Forest.nil, _, _, _, h => by simp [Forest.listing, visible] at h
  | Forest.cons value anchor element children next, k, idx, n, h => by
    have hcast : ((k + 1 : Nat) : Int) = (k : Int) + 1 := by push_cast; rfl
    by_cases hcut : (k : Int) + 1 > depth
    · have hk : ¬ (k : Int) < depth := by omega
      have hk1 : ¬ ((k + 1 : Nat) : Int) < depth := by omega
      have hv : visible depth ((Forest.cons value anchor element children next).listing k) =
          visible depth (next.listing k) := by
        have := visible_cut depth children (k + 1) hk1
        simp only [visible] at this ⊢
        simp only [Forest.listing, List.filter_cons, hk, decide_False, Bool.false_eq_true,
          if_false, List.filter_append, this, List.nil_append]
      rw [hv] at h
      obtain ⟨pre, mid, post, h1, h2, h3, h4⟩ := emitted_occurrence depth next k idx n h
      refine ⟨pre, mid, post, ?_, h2, h3, h4⟩
      simp only [emitted, hcut, if_true, List.nil_append]
      exact h1
    · have hk : (k : Int) < depth := by omega
      have hv : visible depth ((Forest.cons value anchor element children next).listing k) =
          (k, value, anchor, children) ::
            (visible depth (children.listing (k + 1)) ++ visible depth (next.listing k)) := by
        simp only [visible, Forest.listing, List.filter_cons, hk, decide_True, if_true,
          List.filter_append]
      rw [hv] at h
      have he : emitted depth (k : Int) (Forest.cons value anchor element children next) =
          OutlineEvent.beginSection value anchor ::
            (emitted depth ((k + 1 : Nat) : Int) children ++
              OutlineEvent.endSection :: emitted depth (k : Int) next) := by
        simp only [emitted, hcut, if_false, hcast, List.cons_append, List.append_assoc,
          List.nil_append]
      cases idx with
      | zero =>
        simp only [List.getElem?_cons_zero, Option.some.injEq] at h
        subst h
        refine ⟨[], emitted depth ((k + 1 : Nat) : Int) children, emitted depth (k : Int) next,
          ?_, rfl, Nested_emitted depth children _, beginsOf_emitted depth children (k + 1)⟩
        rw [he]
        rfl
      | succ i =>
        rw [List.getElem?_cons_succ] at h
        rcases Nat.lt_or_ge i (visible depth (children.listing (k + 1))).length with hi | hi
        · rw [List.getElem?_append_left hi] at h
          obtain ⟨pre, mid, post, h1, h2, h3, h4⟩ :=
            emitted_occurrence depth children (k + 1) i n h
          refine ⟨OutlineEvent.beginSection value anchor :: pre, mid,
            post ++ OutlineEvent.endSection :: emitted depth (k : Int) next, ?_, ?_, h3, h4⟩
          · rw [he, h1]
            simp only [List.cons_append, List.append_assoc]
          · rw [beginsOf_cons_begin, List.length_cons, h2]
        · rw [List.getElem?_append_right hi] at h
          obtain ⟨pre, mid, post, h1, h2, h3, h4⟩ :=
            emitted_occurrence depth next k _ n h
          refine ⟨OutlineEvent.beginSection value anchor ::
            (emitted depth ((k + 1 : Nat) : Int) children ++ OutlineEvent.endSection :: pre),
            mid, post, ?_, ?_, h3, h4⟩
          · rw [he, h1]
            simp only [List.cons_append, List.append_assoc]
          · rw [beginsOf_cons_begin, List.length_cons, beginsOf_append, List.length_append,
              beginsOf_cons_end, h2, beginsOf_emitted, titles_length]
            omega

theorem emittedRoots_occurrence (depth : Int) :
    ∀ (roots : Forest) (idx : Nat) (n : Nat × String × String × Forest),
      (visible depth roots.underRoots)[idx]? = some n →
      ∃ pre mid post,
        emittedRoots depth roots =
          pre ++ OutlineEvent.beginSection n.2.1 n.2.2.1 ::
            (mid ++ OutlineEvent.endSection :: post) ∧
        (beginsOf pre).length = idx ∧ Nested mid ∧
        beginsOf mid = titles (visible depth (n.2.2.2.listing (n.1 + 1)))
  | Forest.nil, _, _, h => by simp [Forest.underRoots, visible] at h
  | Forest.cons value anchor element children next, idx, n, h => by
    have hv : visible depth (Forest.cons value anchor element children next).underRoots =
        visible depth (children.listing 0) ++ visible depth next.underRoots := by
      simp only [visible, Forest.underRoots, List.filter_append]
    rw [hv] at h
    rcases Nat.lt_or_ge idx (visible depth (children.listing 0)).length with hi | hi
    · rw [List.getElem?_append_left hi] at h
      obtain ⟨pre, mid, post, h1, h2, h3, h4⟩ := emitted_occurrence depth children 0 idx n h
      refine ⟨pre, mid, post ++ emittedRoots depth next, ?_, h2, h3, h4⟩
      simp only [emittedRoots]
      rw [Nat.cast_zero] at h1
      rw [h1]
      simp only [List.cons_append, List.append_assoc]
    · rw [List.getElem?_append_right hi] at h
      obtain ⟨pre, mid, post, h1, h2, h3, h4⟩ := emittedRoots_occurrence depth next _ n h
      refine ⟨emitted depth 0 children ++ pre, mid, post, ?_, ?_, h3, h4⟩
      · simp only [emittedRoots]
        rw [h1]
        simp only [List.append_assoc]
      · have h0 := beginsOf_emitted depth children 0
        rw [Nat.cast_zero] at h0
        rw [beginsOf_append, List.length_append, h2, h0, titles_length]
        omega

/-- C7: the event sequence of `printOutline` is properly nested.  No prefix has
more end than begin events and the whole has equally many; the begin events
are the visited nodes in pre-order; and the begin event of each visited node
(the one at its pre-order position) is followed by a properly nested block
whose begin events are exactly that node's visited descendants, and then by
the node's end event. -/
theorem printOutline_nested (o : Outline) (roots : Forest) (fuel : Nat) (printer : QPrinter)
    (hrep : represents o.items o.d.documentOutlines roots = true)
    (hfuel : roots.height ≤ fuel) :
    ∃ events, o.printOutline fuel printer = some (printer ++ events) ∧
      (∀ n, endCount (events.take n) ≤ (beginsOf (events.take n)).length) ∧
      endCount events = (beginsOf events).length ∧
      beginsOf events = titles (visited o roots) ∧
      ∀ idx n, (visited o roots)[idx]? = some n →
        ∃ pre mid post,
          events = pre ++ OutlineEvent.beginSection n.2.1 n.2.2.1 ::
            (mid ++ OutlineEvent.endSection :: post) ∧
          (beginsOf pre).length = idx ∧ Nested mid ∧
          beginsOf mid =
            titles (visible o.d.settings.outlineDepth (n.2.2.2.listing (n.1 + 1))) := by
  cases hen : o.d.settings.outline with
  | false =>
    refine ⟨[], by simp [Outline.printOutline, hen], Nested.nil.1, Nested.nil.2, ?_, ?_⟩
    · simp [visited, hen, titles, beginsOf]
    · intro idx n h
      simp [visited, hen] at h
  | true =>
    have hn := Nested_emittedRoots o.d.settings.outlineDepth roots
    refine ⟨emittedRoots o.d.settings.outlineDepth roots,
      printOutline_eq o roots fuel printer hrep hen hfuel, hn.1, hn.2, ?_, ?_⟩
    · simp only [visited, hen, if_true]
      exact beginsOf_emittedRoots o.d.settings.outlineDepth roots
    · intro idx n h
      simp only [visited, hen, if_true] at h
      exact emittedRoots_occurrence o.d.settings.outlineDepth roots idx n h

/-- Witness of C7: `outlineDepth = 2` on the sample tree. -/
theorem printOutline_nested_witness :
    (sampleCollection 2).printOutline 4 [] =
      some [OutlineEvent.beginSection "h1a" "__WKANCHOR_0",
        OutlineEvent.beginSection "h2a" "__WKANCHOR_1", OutlineEvent.endSection,
        OutlineEvent.beginSection "h2b" "__WKANCHOR_3", OutlineEvent.endSection,
        OutlineEvent.endSection,
        OutlineEvent.beginSection "h1b" "__WKANCHOR_4", OutlineEvent.endSection] ∧
    ∃ events, (sampleCollection 2).printOutline 4 [] = some ([] ++ events) ∧
      (∀ n, endCount (events.take n) ≤ (beginsOf (events.take n)).length) ∧
      endCount events = (beginsOf events).length ∧
      beginsOf events = titles (visited (sampleCollection 2) sampleForest) ∧
      ∀ idx n, (visited (sampleCollection 2) sampleForest)[idx]? = some n →
        ∃ pre mid post,
          events = pre ++ OutlineEvent.beginSection n.2.1 n.2.2.1 ::
            (mid ++ OutlineEvent.endSection :: post) ∧
          (beginsOf pre).length = idx ∧ Nested mid ∧
          beginsOf mid =
            titles (visible (sampleCollection 2).d.settings.outlineDepth
              (n.2.2.2.listing (n.1 + 1))) :=
  ⟨by decide, printOutline_nested (sampleCollection 2) sampleForest 4 [] (by decide)
    (by decide)⟩

theorem foldlM_none_of_mem {α β : Type} (f : β → α → Option β) (bad : α → Prop)
    (hbad : ∀ b a, bad a → f b a = none) :
    ∀ (l : List α) (b : β), (∃ a, a ∈ l ∧ bad a) → l.foldlM f b = none
  | [], _, h => by
    obtain ⟨a, ha, _⟩ := h
    cases ha
  | x :: l, b, h => by
    rw [List.foldlM_cons]
    cases hx : f b x with
    | none => rfl
    | some b2 =>
      obtain ⟨a, ha, hba⟩ := h
      rcases List.mem_cons.mp ha with h1 | h1
      · rw [h1] at hba
        rw [hbad b x hba] at hx
        cases hx
      · exact foldlM_none_of_mem f bad hbad l b2 ⟨a, h1, hba⟩

/-- The recursion of `fillChildAnchors` on an item with a child whose anchor is
not empty repeats the call on the same item: no amount of fuel suffices for
a result. -/
theorem fillChildAnchors_never_returns (items : Heap) (item : Nat) (it : OutlineItem)
    (hit : items[item]? = some it)
    (hchild : ∃ i, i ∈ it.children ∧ ∃ child, items[i]? = some child ∧ child.anchor ≠ "") :
    ∀ (fuel : Nat) (anchors : AnchorMap),
      OutlinePrivate.fillChildAnchors items fuel item anchors = none
  | 0, _ => rfl
  | fuel + 1, anchors => by
    rw [OutlinePrivate.fillChildAnchors]
    simp only [hit]
    refine foldlM_none_of_mem _ (fun i => ∃ child, items[i]? = some child ∧ child.anchor ≠ "")
      ?_ it.children anchors hchild
    intro b i hi
    obtain ⟨child, h1, h2⟩ := hi
    simp only [h1, h2, if_false]
    exact fillChildAnchors_never_returns items item it hit hchild fuel _

/-- C8 (the code departs from it): on the sample tree, whose nodes all carry
an anchor, `fillAnchors(0, {})` returns no map for any amount of fuel, so in
particular none with the entry of the first heading; and on a tree whose only
child of the root has an empty anchor it returns the empty map, without the
entry of the grandchild. -/
theorem fillAnchors_contents_fail :
    (∀ fuel result, (sampleCollection 1).fillAnchors fuel 0 [] = some result →
      result.lookup "__WKANCHOR_0" ≠ some ⟨1, "h1a", 1⟩) ∧
    sampleDeepCollection.fillAnchors 2 0 [] = some [] := by
  refine ⟨?_, by decide⟩
  intro fuel result h
  have hnone : (sampleCollection 1).fillAnchors fuel 0 [] = none := by
    have := fillChildAnchors_never_returns sampleItems 0
      ⟨none, [1, 5], 0, "", QWebElement.null, ""⟩ rfl
      ⟨1, by decide, ⟨some 0, [2, 4], 0, "h1a", ⟨1, "h1a", 1⟩, "__WKANCHOR_0"⟩, rfl, by decide⟩
      fuel []
    simpa [Outline.fillAnchors, sampleCollection] using this
  rw [hnone] at h
  cases h

/-- C9 (the code departs from it): for the sample collection, whose root has
a child with a non-empty anchor, `fillAnchors(0, anchors)` does not return,
whatever the fuel and the map given. -/
theorem fillAnchors_diverges :
    ∀ (fuel : Nat) (anchors : AnchorMap),
      (sampleCollection 1).fillAnchors fuel 0 anchors = none := by
  intro fuel anchors
  have := fillChildAnchors_never_returns sampleItems 0
    ⟨none, [1, 5], 0, "", QWebElement.null, ""⟩ rfl
    ⟨1, by decide, ⟨some 0, [2, 4], 0, "h1a", ⟨1, "h1a", 1⟩, "__WKANCHOR_0"⟩, rfl, by decide⟩
    fuel anchors
  simpa [Outline.fillAnchors, sampleCollection] using this

/-- C10: for a document index that is negative or not below the number of
document roots, `fillAnchors` returns, for any fuel, and returns the map it
was given, with no entry added; it has no effect on the collection, which it
only reads. -/
theorem fillAnchors_out_of_range (o : Outline) (fuel : Nat) (doc : Int) (anchors : AnchorMap)
    (h : doc < 0 ∨ doc ≥ (o.d.documentOutlines.length : Int)) :
    o.fillAnchors fuel doc anchors = some anchors := by
  simp only [Outline.fillAnchors, h, if_true]

/-- Witness of C10: the indices 1 and -1 on a collection with one document. -/
theorem fillAnchors_out_of_range_witness :
    (sampleCollection 1).fillAnchors 0 1 [] = some [] ∧
    (sampleCollection 1).fillAnchors 0 (-1) [("k", QWebElement.null)] =
      some [("k", QWebElement.null)] :=
  ⟨fillAnchors_out_of_range (sampleCollection 1) 0 1 [] (by decide),
    fillAnchors_out_of_range (sampleCollection 1) 0 (-1) [("k", QWebElement.null)] (by decide)⟩

theorem qPairLess_iff (a b : HeadingKey) : qPairLess a b = true ↔ keyBefore a b := by
  obtain ⟨a1, a2, a3⟩ := a
  obtain ⟨b1, b2, b3⟩ := b
  simp only [qPairLess, keyBefore, Bool.or_eq_true, Bool.and_eq_true, decide_eq_true_eq,
    Bool.not_eq_true', decide_eq_false_iff_not, not_lt]
  constructor
  · rintro (h | ⟨h1, h2⟩)
    · exact Or.inl h
    · rcases lt_or_eq_of_le h1 with h3 | h3
      · exact Or.inl h3
      · refine Or.inr ⟨h3, ?_⟩
        rcases h2 with h | ⟨h4, h5⟩
        · exact Or.inl h
        · rcases lt_or_eq_of_le h4 with h6 | h6
          · exact Or.inl h6
          · exact Or.inr ⟨h6, h5⟩
  · rintro (h | ⟨h1, h2⟩)
    · exact Or.inl h
    · refine Or.inr ⟨le_of_eq h1, ?_⟩
      rcases h2 with h | ⟨h4, h5⟩
      · exact Or.inl h
      · exact Or.inr ⟨le_of_eq h4, h5⟩

theorem keyBefore_trans (a b c : HeadingKey) (h1 : keyBefore a b) (h2 : keyBefore b c) :
    keyBefore a c := by
  obtain ⟨a1, a2, a3⟩ := a
  obtain ⟨b1, b2, b3⟩ := b
  obtain ⟨c1, c2, c3⟩ := c
  simp only [keyBefore] at h1 h2 ⊢
  rcases h1 with h1 | ⟨e1, h1⟩
  · rcases h2 with h2 | ⟨e2, _⟩
    · exact Or.inl (lt_trans h1 h2)
    · exact Or.inl (by rw [← e2]; exact h1)
  · rcases h2 with h2 | ⟨e2, h2⟩
    · exact Or.inl (by rw [e1]; exact h2)
    · refine Or.inr ⟨e1.trans e2, ?_⟩
      rcases h1 with h1 | ⟨e3, h1⟩
      · rcases h2 with h2 | ⟨e4, _⟩
        · exact Or.inl (lt_trans h1 h2)
        · exact Or.inl (by rw [← e4]; exact h1)
      · rcases h2 with h2 | ⟨e4, h2⟩
        · exact Or.inl (by rw [e3]; exact h2)
        · exact Or.inr ⟨e3.trans e4, lt_trans h1 h2⟩

theorem keyBefore_irrefl (a : HeadingKey) : ¬ keyBefore a a := by
  obtain ⟨a1, a2, a3⟩ := a
  simp [keyBefore]

theorem headingsInsert_mem_key (key : HeadingKey) (e : QWebElement) :
    ∀ (l : List (HeadingKey × QWebElement)) (h : HeadingKey × QWebElement),
      h ∈ headingsInsert key e l → h = (key, e) ∨ h ∈ l
  | [], h, hh => by
    simp only [headingsInsert, List.mem_singleton] at hh
    exact Or.inl hh
  | (k, v) :: rest, h, hh => by
    simp only [headingsInsert] at hh
    split at hh
    · rcases List.mem_cons.mp hh with h1 | h1
      · exact Or.inl h1
      · exact Or.inr h1
    · rename_i hlt1
      split at hh
      · rcases List.mem_cons.mp hh with h1 | h1
        · exact Or.inr (by rw [h1]; exact List.mem_cons_self _ _)
        · rcases headingsInsert_mem_key key e rest h h1 with h2 | h2
          · exact Or.inl h2
          · exact Or.inr (List.mem_cons_of_mem _ h2)
      · rename_i hlt2
        have hk : key = k := qPairLess_eq_of_not key k (by simpa using hlt1) (by simpa using hlt2)
        rcases List.mem_cons.mp hh with h1 | h1
        · exact Or.inl (by rw [h1, hk])
        · exact Or.inr (List.mem_cons_of_mem _ h1)

/-- An insertion into the `headings` map keeps the keys in strictly ascending
order. -/
theorem headingsInsert_sorted (key : HeadingKey) (e : QWebElement) :
    ∀ (l : List (HeadingKey × QWebElement)),
      l.Pairwise (fun a b => keyBefore a.1 b.1) →
      (headingsInsert key e l).Pairwise (fun a b => keyBefore a.1 b.1)
  | [], _ => by simp [headingsInsert]
  | (k, v) :: rest, hl => by
    obtain ⟨h1, h2⟩ := List.pairwise_cons.mp hl
    simp only [headingsInsert]
    split
    · rename_i hlt
      have hlt2 : keyBefore key k := (qPairLess_iff key k).mp hlt
      refine List.pairwise_cons.mpr ⟨?_, hl⟩
      intro x hx
      rcases List.mem_cons.mp hx with hx1 | hx1
      · rw [hx1]; exact hlt2
      · exact keyBefore_trans _ _ _ hlt2 (h1 x hx1)
    · split
      · rename_i hlt
        have hlt2 : keyBefore k key := (qPairLess_iff k key).mp hlt
        refine List.pairwise_cons.mpr ⟨?_, headingsInsert_sorted key e rest h2⟩
        intro x hx
        rcases headingsInsert_mem_key key e rest x hx with hx1 | hx1
        · rw [hx1]; exact hlt2
        · exact h1 x hx1
      · exact List.pairwise_cons.mpr ⟨h1, h2⟩

theorem collectHeadings_append_singleton (wp : QWebPrinter) (found : List QWebElement)
    (e : QWebElement) :
    collectHeadings wp (found ++ [e]) =
      headingsInsert (headingKey wp e) e (collectHeadings wp found) := by
  simp [collectHeadings, List.foldl_append, headingKey]

theorem collectHeadings_sorted (wp : QWebPrinter) (found : List QWebElement) :
    (collectHeadings wp found).Pairwise (fun a b => keyBefore a.1 b.1) := by
  induction found using List.reverseRecOn with
  | nil => simp [collectHeadings]
  | append_singleton found e ih =>
    rw [collectHeadings_append_singleton]
    exact headingsInsert_sorted _ _ _ ih

/-- C12: the sequence the loop of `addWebPage` processes is in strictly
ascending lexicographic order of the keys (page index, then `y`, then `x`),
for every list of found elements in whatever order they were found, and
every entry is filed under the location of its element. -/
theorem headings_sorted (wp : QWebPrinter) (found : List QWebElement) :
    (collectHeadings wp found).Pairwise (fun a b => keyBefore a.1 b.1) ∧
      ∀ h, h ∈ collectHeadings wp found → h.1 = headingKey wp h.2 :=
  ⟨collectHeadings_sorted wp found, collectHeadings_key wp found⟩

/-- Witness of C12: the sample elements found in reverse order are processed
top to bottom. -/
theorem headings_sorted_witness :
    (collectHeadings (samplePrinter 0 3) sampleFound.reverse).map (fun h => h.2.plainText) =
      ["h1a", "h2a", "h3a", "h2b", "h1b"] ∧
    (collectHeadings (samplePrinter 0 3) sampleFound.reverse).Pairwise
      (fun a b => keyBefore a.1 b.1) ∧
    ∀ h, h ∈ collectHeadings (samplePrinter 0 3) sampleFound.reverse →
      h.1 = headingKey (samplePrinter 0 3) h.2 :=
  ⟨by decide, headings_sorted (samplePrinter 0 3) sampleFound.reverse⟩

theorem keyBefore_ne (a b : HeadingKey) (h : keyBefore a b) : b ≠ a := by
  intro hab
  rw [hab] at h
  exact keyBefore_irrefl a h

/-- The entries of the `headings` map after `headings[key] = e`: the new
entry, and the old entries with another key. -/
theorem headingsInsert_mem_iff (key : HeadingKey) (e : QWebElement) :
    ∀ (l : List (HeadingKey × QWebElement)),
      l.Pairwise (fun a b => keyBefore a.1 b.1) →
      ∀ h, h ∈ headingsInsert key e l ↔ h = (key, e) ∨ (h ∈ l ∧ h.1 ≠ key)
  | [], _, h => by simp [headingsInsert]
  | (k, v) :: rest, hl, h => by
    obtain ⟨h1, h2⟩ := List.pairwise_cons.mp hl
    have ih := headingsInsert_mem_iff key e rest h2 h
    simp only [headingsInsert]
    split
    · rename_i hlt
      have hlt2 : keyBefore key k := (qPairLess_iff key k).mp hlt
      constructor
      · intro hh
        rcases List.mem_cons.mp hh with hx | hx
        · exact Or.inl hx
        · refine Or.inr ⟨hx, ?_⟩
          rcases List.mem_cons.mp hx with hy | hy
          · rw [hy]; exact keyBefore_ne _ _ hlt2
          · exact keyBefore_ne _ _ (keyBefore_trans _ _ _ hlt2 (h1 h hy))
      · rintro (hx | ⟨hx, _⟩)
        · rw [hx]; exact List.mem_cons_self _ _
        · exact List.mem_cons_of_mem _ hx
    · rename_i hlt1
      split
      · rename_i hlt
        have hlt2 : keyBefore k key := (qPairLess_iff k key).mp hlt
        constructor
        · intro hh
          rcases List.mem_cons.mp hh with hx | hx
          · refine Or.inr ⟨by rw [hx]; exact List.mem_cons_self _ _, ?_⟩
            rw [hx]
            exact (keyBefore_ne _ _ hlt2).symm
          · rcases ih.mp hx with hy | ⟨hy, hz⟩
            · exact Or.inl hy
            · exact Or.inr ⟨List.mem_cons_of_mem _ hy, hz⟩
        · rintro (hx | ⟨hx, hz⟩)
          · exact List.mem_cons_of_mem _ (ih.mpr (Or.inl hx))
          · rcases List.mem_cons.mp hx with hy | hy
            · rw [hy]; exact List.mem_cons_self _ _
            · exact List.mem_cons_of_mem _ (ih.mpr (Or.inr ⟨hy, hz⟩))
      · rename_i hlt2
        have hk : key = k := qPairLess_eq_of_not key k (by simpa using hlt1) (by simpa using hlt2)
        subst hk
        constructor
        · intro hh
          rcases List.mem_cons.mp hh with hx | hx
          · exact Or.inl hx
          · exact Or.inr ⟨List.mem_cons_of_mem _ hx, keyBefore_ne _ _ (h1 h hx)⟩
        · rintro (hx | ⟨hx, hz⟩)
          · rw [hx]; exact List.mem_cons_self _ _
          · rcases List.mem_cons.mp hx with hy | hy
            · rw [hy] at hz
              exact absurd rfl hz
            · exact List.mem_cons_of_mem _ hy

/-- An insertion under a key the map does not hold adds one entry and keeps
the others. -/
theorem headingsInsert_perm (key : HeadingKey) (e : QWebElement) :
    ∀ (l : List (HeadingKey × QWebElement)), (∀ h, h ∈ l → h.1 ≠ key) →
      (headingsInsert key e l).Perm ((key, e) :: l)
  | [], _ => by simp [headingsInsert]
  | (k, v) :: rest, hl => by
    simp only [headingsInsert]
    split
    · exact List.Perm.refl _
    · rename_i hlt1
      split
      · have ih := headingsInsert_perm key e rest (fun h hh => hl h (List.mem_cons_of_mem _ hh))
        exact (List.Perm.cons (k, v) ih).trans (List.Perm.swap _ _ _)
      · rename_i hlt2
        have hk : key = k := qPairLess_eq_of_not key k (by simpa using hlt1) (by simpa using hlt2)
        exact absurd hk.symm (hl (k, v) (List.mem_cons_self _ _))

/-- The map `headings` holds, for every location of a found element, the
element found last at that location. -/
theorem collectHeadings_mem_iff (wp : QWebPrinter) (found : List QWebElement) :
    ∀ h, h ∈ collectHeadings wp found ↔
      (h.1 = headingKey wp h.2 ∧ ∃ pre post, found = pre ++ h.2 :: post ∧
        ∀ e, e ∈ post → headingKey wp e ≠ h.1) := by
  induction found using List.reverseRecOn with
  | nil =>
    intro h
    simp [collectHeadings]
  | append_singleton found e ih =>
    intro h
    rw [collectHeadings_append_singleton,
      headingsInsert_mem_iff _ _ _ (collectHeadings_sorted wp found)]
    constructor
    · rintro (hx | ⟨hx, hz⟩)
      · rw [hx]
        exact ⟨rfl, found, [], rfl, by intro x hx2; cases hx2⟩
      · obtain ⟨h1, pre, post, h2, h3⟩ := (ih h).mp hx
        refine ⟨h1, pre, post ++ [e], by rw [h2]; simp, ?_⟩
        intro x hx2
        rcases List.mem_append.mp hx2 with hx3 | hx3
        · exact h3 x hx3
        · rw [List.mem_singleton.mp hx3]
          exact fun hc => hz hc.symm
    · rintro ⟨h1, pre, post, h2, h3⟩
      rcases List.eq_nil_or_concat post with hp | ⟨post2, x, hp⟩
      · subst hp
        have h4 := List.append_inj_right' h2 rfl
        have h5 : e = h.2 := by simpa using h4
        left
        rw [h5]
        exact Prod.ext h1 rfl
      · subst hp
        have h4 : found ++ [e] = (pre ++ h.2 :: post2) ++ [x] := by
          rw [h2, List.concat_eq_append]; simp
        have h5 := List.append_inj_left' h4 rfl
        have h6 : e = x := by simpa using List.append_inj_right' h4 rfl
        right
        refine ⟨(ih h).mpr ⟨h1, pre, post2, h5, ?_⟩, ?_⟩
        · intro y hy
          exact h3 y (by rw [List.concat_eq_append]; exact List.mem_append_left _ hy)
        · have := h3 x (by rw [List.concat_eq_append]; simp)
          rw [h6]
          exact fun hc => this hc.symm

/-- With pairwise different locations, the map `headings` holds every found
element once. -/
theorem collectHeadings_perm (wp : QWebPrinter) (found : List QWebElement)
    (hnd : (found.map (headingKey wp)).Nodup) :
    ((collectHeadings wp found).map (fun h => h.2)).Perm found := by
  induction found using List.reverseRecOn with
  | nil => simp [collectHeadings]
  | append_singleton found e ih =>
    rw [List.map_append, List.nodup_append] at hnd
    obtain ⟨h1, _, h3⟩ := hnd
    rw [collectHeadings_append_singleton]
    have hfresh : ∀ h, h ∈ collectHeadings wp found → h.1 ≠ headingKey wp e := by
      intro h hh hc
      have h4 := collectHeadings_mem wp found h hh
      have h5 := collectHeadings_key wp found h hh
      exact h3 (List.mem_map.mpr ⟨h.2, h4, rfl⟩) (by rw [← h5, hc]; simp)
    have hp := (headingsInsert_perm (headingKey wp e) e _ hfresh).map (fun h => h.2)
    refine hp.trans ?_
    simp only [List.map_cons]
    exact ((ih h1).cons e).trans (List.perm_append_singleton e found).symm

theorem sampleTwins_levels :
    ∀ e, e ∈ sampleTwins → 1 ≤ e.tagNumber ∧ e.tagNumber ≤ 9 := by
  intro e he
  simp only [sampleTwins, List.mem_cons, List.mem_singleton, List.not_mem_nil, or_false] at he
  rcases he with rfl | rfl <;> decide

/-- C11, as stated, fails: of two distinct headings laid out at the same
place only the one found last is processed.  The first is not in the
sequence, and one outline item is created (the store holds the root and one
item) although two headings were found. -/
theorem headings_twins_lost :
    collectHeadings samePlacePrinter sampleTwins = [((0, (0, 0)), ⟨2, "second", 2⟩)] ∧
    ((collectHeadings samePlacePrinter sampleTwins).map (fun h => h.2)).count
      ⟨1, "first", 1⟩ = 0 ∧
    sampleTwins.length = 2 ∧
    (sampleOutline.addWebPage samePlacePrinter sampleTwins).map (fun o => o.items.length) =
      some 2 := by
  decide

theorem exists_last_with_key (wp : QWebPrinter) :
    ∀ (found : List QWebElement) (e : QWebElement), e ∈ found →
      ∃ pre x post, found = pre ++ x :: post ∧ headingKey wp x = headingKey wp e ∧
        ∀ y, y ∈ post → headingKey wp y ≠ headingKey wp e
  | [], _, h => by cases h
  | x :: rest, e, h => by
    by_cases hlater : ∃ y, y ∈ rest ∧ headingKey wp y = headingKey wp e
    · obtain ⟨y, hy, hky⟩ := hlater
      obtain ⟨pre, z, post, h1, h2, h3⟩ := exists_last_with_key wp rest y hy
      refine ⟨x :: pre, z, post, by rw [h1]; rfl, h2.trans hky, ?_⟩
      intro w hw
      rw [← hky]
      exact h3 w hw
    · have hx : e = x := by
        rcases List.mem_cons.mp h with h1 | h1
        · exact h1
        · exact absurd ⟨e, h1, rfl⟩ hlater
      refine ⟨[], x, rest, rfl, by rw [hx], ?_⟩
      intro w hw hk
      exact hlater ⟨w, hw, hk⟩

/-- The keys of the `headings` map are the locations of the found elements. -/
theorem collectHeadings_keys (wp : QWebPrinter) (found : List QWebElement) (k : HeadingKey) :
    k ∈ (collectHeadings wp found).map (fun h => h.1) ↔ k ∈ found.map (headingKey wp) := by
  constructor
  · intro hk
    obtain ⟨h, hh, hhk⟩ := List.mem_map.mp hk
    rw [← hhk, collectHeadings_key wp found h hh]
    exact List.mem_map.mpr ⟨h.2, collectHeadings_mem wp found h hh, rfl⟩
  · intro hk
    obtain ⟨e, he, hek⟩ := List.mem_map.mp hk
    obtain ⟨pre, x, post, h1, h2, h3⟩ := exists_last_with_key wp found e he
    have hmem : (headingKey wp x, x) ∈ collectHeadings wp found :=
      (collectHeadings_mem_iff wp found (headingKey wp x, x)).mpr
        ⟨rfl, pre, post, h1, fun y hy => by rw [h2]; exact h3 y hy⟩
    exact List.mem_map.mpr ⟨(headingKey wp x, x), hmem, by rw [← hek, ← h2]⟩

theorem collectHeadings_keys_nodup (wp : QWebPrinter) (found : List QWebElement) :
    ((collectHeadings wp found).map (fun h => h.1)).Nodup := by
  rw [List.Nodup, List.pairwise_map]
  exact (collectHeadings_sorted wp found).imp (fun h => (keyBefore_ne _ _ h).symm)

/-- C11, amended: the sequence that `addWebPage` processes has strictly
ascending keys and holds exactly one entry for every location at which a
heading was found, namely the heading found last at that location; when the
found headings have pairwise different locations it holds every found heading
exactly once.  The call creates one outline item per entry, besides the
root: as many as there are distinct locations, which is the number of found
headings when their locations are pairwise different. -/
theorem headings_one_per_location (o : Outline) (wp : QWebPrinter) (found : List QWebElement)
    (hlevel : ∀ e, e ∈ found → 1 ≤ e.tagNumber ∧ e.tagNumber ≤ 9) :
    (collectHeadings wp found).Pairwise (fun a b => keyBefore a.1 b.1) ∧
    (∀ h, h ∈ collectHeadings wp found ↔
      (h.1 = headingKey wp h.2 ∧ ∃ pre post, found = pre ++ h.2 :: post ∧
        ∀ e, e ∈ post → headingKey wp e ≠ h.1)) ∧
    (∀ k, k ∈ (collectHeadings wp found).map (fun h => h.1) ↔
      k ∈ found.map (headingKey wp)) ∧
    ((collectHeadings wp found).map (fun h => h.1)).Nodup ∧
    (collectHeadings wp found).length = (found.map (headingKey wp)).dedup.length ∧
    ((found.map (headingKey wp)).Nodup →
      ((collectHeadings wp found).map (fun h => h.2)).Perm found ∧
        (collectHeadings wp found).length = found.length) ∧
    ∃ o2, o.addWebPage wp found = some o2 ∧
      o2.items.length = o.items.length + 1 + (collectHeadings wp found).length := by
  refine ⟨collectHeadings_sorted wp found, collectHeadings_mem_iff wp found,
    collectHeadings_keys wp found, collectHeadings_keys_nodup wp found, ?_, ?_, ?_⟩
  · have hp : ((collectHeadings wp found).map (fun h => h.1)).Perm
        (found.map (headingKey wp)).dedup :=
      (List.perm_ext_iff_of_nodup (collectHeadings_keys_nodup wp found)
        (List.nodup_dedup _)).mpr
        (fun k => by rw [List.mem_dedup]; exact collectHeadings_keys wp found k)
    simpa using hp.length_eq
  · intro hnd
    have hp := collectHeadings_perm wp found hnd
    exact ⟨hp, by simpa using hp.length_eq⟩
  · obtain ⟨o2, st, h1, hinv, h2, _⟩ := addWebPage_spec o wp found hlevel
    exact ⟨o2, h1, by rw [h2, hinv.len]⟩

/-- Witness of the amended C11: the two headings at one place, and the five
sample headings at five places. -/
theorem headings_one_per_location_witness :
    ((collectHeadings samePlacePrinter sampleTwins).Pairwise (fun a b => keyBefore a.1 b.1) ∧
    (∀ h, h ∈ collectHeadings samePlacePrinter sampleTwins ↔
      (h.1 = headingKey samePlacePrinter h.2 ∧ ∃ pre post, sampleTwins = pre ++ h.2 :: post ∧
        ∀ e, e ∈ post → headingKey samePlacePrinter e ≠ h.1)) ∧
    (∀ k, k ∈ (collectHeadings samePlacePrinter sampleTwins).map (fun h => h.1) ↔
      k ∈ sampleTwins.map (headingKey samePlacePrinter)) ∧
    ((collectHeadings samePlacePrinter sampleTwins).map (fun h => h.1)).Nodup ∧
    (collectHeadings samePlacePrinter sampleTwins).length =
      (sampleTwins.map (headingKey samePlacePrinter)).dedup.length ∧
    ((sampleTwins.map (headingKey samePlacePrinter)).Nodup →
      ((collectHeadings samePlacePrinter sampleTwins).map (fun h => h.2)).Perm sampleTwins ∧
        (collectHeadings samePlacePrinter sampleTwins).length = sampleTwins.length) ∧
    ∃ o2, sampleOutline.addWebPage samePlacePrinter sampleTwins = some o2 ∧
      o2.items.length =
        sampleOutline.items.length + 1 +
          (collectHeadings samePlacePrinter sampleTwins).length) ∧
    (((collectHeadings (samplePrinter 1 3) sampleFound).map (fun h => h.2)).Perm sampleFound ∧
      (collectHeadings (samplePrinter 1 3) sampleFound).length = sampleFound.length) :=
  ⟨headings_one_per_location sampleOutline samePlacePrinter sampleTwins sampleTwins_levels,
    (headings_one_per_location sampleOutline (samplePrinter 1 3) sampleFound
      (sampleDocs_levels (samplePrinter 1 3, sampleFound) (by simp [sampleDocs]))).2.2.2.2.2.1
      (by decide)⟩

/-- C17: with the outline setting disabled `printOutline` is a no-op: it
returns for any fuel, the printer has received no call, and the collection,
which the function only reads, is as before. -/
theorem printOutline_disabled (o : Outline) (fuel : Nat) (printer : QPrinter)
    (hoff : o.d.settings.outline = false) : o.printOutline fuel printer = some printer := by
  simp only [Outline.printOutline, hoff, Bool.not_false, if_true]

/-- Witness of C17: the sample collection with the outline disabled. -/
theorem printOutline_disabled_witness :
    sampleDisabled.printOutline 4 [] = some [] ∧
    sampleDisabled.printOutline 0 [OutlineEvent.endSection] = some [OutlineEvent.endSection] :=
  ⟨printOutline_disabled sampleDisabled 4 [] rfl,
    printOutline_disabled sampleDisabled 0 [OutlineEvent.endSection] rfl⟩

/-- The node of heading `i` in a store that satisfies the loop invariant: its
parent pointer and its child list in terms of the parent positions. -/
theorem LoopInv.node_get (base : Heap) (pc : Int) (c : Nat)
    (hs : List (HeadingKey × QWebElement)) (m : Nat) (st : BuildState)
    (hinv : LoopInv base pc c hs m st) (i : Nat) (hi : i < m) :
    ∃ it, st.items[base.length + 1 + i]? = some it ∧
      it.parent = some (base.length + parentPos st.items base.length i) ∧
      it.children = ((List.range m).filter
        (fun j => decide (parentPos st.items base.length j = i + 1))).map
          (fun j => base.length + 1 + j) := by
  obtain ⟨it, _, h1, _⟩ := hinv.node i hi
  have h2 := (LoopInv.parentAt_eq base pc c hs m st hinv i hi).1
  simp only [parentAt, h1, Option.map_some', Option.some.injEq] at h2
  exact ⟨it, h1, h2, LoopInv.children_eq base pc c hs m st hinv (i + 1) it
    (by rw [← h1]; congr 1; omega)⟩

theorem LoopInv.parentPos_le (base : Heap) (pc : Int) (c : Nat)
    (hs : List (HeadingKey × QWebElement)) (m : Nat) (st : BuildState)
    (hinv : LoopInv base pc c hs m st) (i : Nat) (hi : i < m) :
    parentPos st.items base.length i ≤ i := by
  rcases (LoopInv.parentAt_eq base pc c hs m st hinv i hi).2 with ⟨h, _⟩ | ⟨j, hj, h, _⟩ <;> omega

/-- Two consecutive headings of the same level have the same parent. -/
theorem LoopInv.parentPos_same_level (base : Heap) (pc : Int) (c : Nat)
    (hs : List (HeadingKey × QWebElement)) (m : Nat) (st : BuildState)
    (hinv : LoopInv base pc c hs m st) (i : Nat) (hi : i + 1 < m)
    (hlv : levelAt hs (i + 1) = levelAt hs i) :
    parentPos st.items base.length (i + 1) = parentPos st.items base.length i := by
  have h1 := (LoopInv.parentAt_eq base pc c hs m st hinv (i + 1) hi).2
  have h2 := (LoopInv.parentAt_eq base pc c hs m st hinv i (by omega)).2
  rcases h1 with ⟨a1, a2⟩ | ⟨j, hj, a1, a2, a3⟩
  · rcases h2 with ⟨b1, _⟩ | ⟨k, hk, b1, b2, _⟩
    · omega
    · have := a2 k (by omega)
      omega
  · have hji : j ≠ i := by
      intro h
      rw [h] at a2
      omega
    rcases h2 with ⟨b1, b2⟩ | ⟨k, hk, b1, b2, b3⟩
    · have := b2 j (by omega)
      omega
    · rcases Nat.lt_trichotomy j k with h | h | h
      · have := a3 k h (by omega)
        omega
      · omega
      · have := b3 j h (by omega)
        omega

theorem range_split_pair (n i : Nat) (hi : i + 1 < n) :
    List.range n = List.range i ++ i :: (i + 1) :: List.range' (i + 2) (n - (i + 2)) := by
  rw [List.range_eq_range', List.range_eq_range']
  have h1 := List.range'_append_1 0 i (n - i)
  have h2 : n - i + i = n := by omega
  rw [h2, Nat.zero_add] at h1
  rw [← h1]
  congr 1
  have h3 : n - i = (n - (i + 2)) + 1 + 1 := by omega
  rw [h3, List.range'_succ, List.range'_succ]

theorem sampleFlat_levels :
    ∀ h, h ∈ sampleFlat → 1 ≤ h.2.tagNumber ∧ h.2.tagNumber ≤ 9 := by
  intro h hh
  simp only [sampleFlat, List.mem_cons, List.mem_singleton, List.not_mem_nil, or_false] at hh
  rcases hh with rfl | rfl | rfl <;> decide

/-- C14: same-level flattening.  A heading of the same level as its immediate
predecessor gets the parent of the predecessor (so not the predecessor
itself), and stands right after the predecessor in that parent's child list.
When all headings have one level, the children of the root are all the
created nodes in input order, and none of them has a child. -/
theorem same_level_flattening (items : Heap) (pc : Int) (c : Nat)
    (headings : List (HeadingKey × QWebElement))
    (hlevel : ∀ h, h ∈ headings → 1 ≤ h.2.tagNumber ∧ h.2.tagNumber ≤ 9) :
    ∃ st root, buildTree items pc c headings = some (st, root) ∧
      (∀ i, i + 1 < headings.length → levelAt headings (i + 1) = levelAt headings i →
        ∃ a b par parent pre post,
          st.items[root + 1 + i]? = some a ∧ st.items[root + 1 + (i + 1)]? = some b ∧
          a.parent = some par ∧ b.parent = some par ∧ par ≠ root + 1 + i ∧
          st.items[par]? = some parent ∧
          parent.children = pre ++ (root + 1 + i) :: (root + 1 + (i + 1)) :: post) ∧
      ((∀ i, i < headings.length → levelAt headings i = levelAt headings 0) →
        ∃ rootItem, st.items[root]? = some rootItem ∧
          rootItem.children = (List.range headings.length).map (fun i => root + 1 + i) ∧
          ∀ i, i < headings.length →
            ∃ it, st.items[root + 1 + i]? = some it ∧ it.parent = some root ∧
              it.children = []) := by
  obtain ⟨st, h1, hinv⟩ := buildTree_inv items pc c headings
    (fun h hh => headingLevel_pos h.2 (hlevel h hh))
  refine ⟨st, items.length, h1, ?_, ?_⟩
  · intro i hi hlv
    obtain ⟨a, ha1, ha2, _⟩ := LoopInv.node_get items pc c headings _ st hinv i (by omega)
    obtain ⟨b, hb1, hb2, _⟩ := LoopInv.node_get items pc c headings _ st hinv (i + 1) hi
    have hsame := LoopInv.parentPos_same_level items pc c headings _ st hinv i hi hlv
    have hle := LoopInv.parentPos_le items pc c headings _ st hinv i (by omega)
    have hlt : items.length + parentPos st.items items.length i < st.items.length := by
      rw [hinv.len]; omega
    have hp := LoopInv.children_eq items pc c headings _ st hinv
      (parentPos st.items items.length i) st.items[items.length + parentPos st.items items.length i]
      (List.getElem?_eq_getElem hlt)
    refine ⟨a, b, items.length + parentPos st.items items.length i,
      st.items[items.length + parentPos st.items items.length i],
      ((List.range i).filter (fun j => decide (parentPos st.items items.length j =
        parentPos st.items items.length i))).map (fun j => items.length + 1 + j),
      ((List.range' (i + 2) (headings.length - (i + 2))).filter
        (fun j => decide (parentPos st.items items.length j =
          parentPos st.items items.length i))).map (fun j => items.length + 1 + j),
      ha1, hb1, ha2, by rw [hb2, hsame], by omega, List.getElem?_eq_getElem hlt, ?_⟩
    rw [hp, range_split_pair headings.length i hi, List.filter_append, List.filter_cons,
      List.filter_cons]
    simp only [hsame, decide_True, if_true, List.map_append, List.map_cons]
  · intro hall
    have hzero : ∀ i, i < headings.length → parentPos st.items items.length i = 0 := by
      intro i hi
      rcases (LoopInv.parentAt_eq items pc c headings _ st hinv i hi).2 with ⟨h, _⟩ |
        ⟨j, hj, _, h3, _⟩
      · exact h
      · have := hall i hi
        have := hall j (by omega)
        omega
    obtain ⟨rootItem, hroot, _⟩ := hinv.root
    refine ⟨rootItem, hroot, ?_, ?_⟩
    · rw [LoopInv.children_eq items pc c headings _ st hinv 0 rootItem hroot]
      congr 1
      rw [List.filter_eq_self]
      intro j hj
      simp [hzero j (List.mem_range.mp hj)]
    · intro i hi
      obtain ⟨it, h2, h3, h4⟩ := LoopInv.node_get items pc c headings _ st hinv i hi
      refine ⟨it, h2, by rw [h3, hzero i hi]; rfl, ?_⟩
      rw [h4, List.map_eq_nil_iff, List.filter_eq_nil_iff]
      intro j hj
      simp [hzero j (List.mem_range.mp hj)]

/-- Witness of C14 on the levels `[2,2,2]`: three children of the root, in
input order, each without children. -/
theorem same_level_flattening_witness :
    (buildTree [] 0 0 sampleFlat).map
        (fun r => r.1.items.map (fun it => (it.value, it.parent, it.children))) =
      some [("", none, [1, 2, 3]), ("a", some 0, []), ("b", some 0, []), ("c", some 0, [])] ∧
    ∃ st root, buildTree [] 0 0 sampleFlat = some (st, root) ∧
      (∀ i, i + 1 < sampleFlat.length → levelAt sampleFlat (i + 1) = levelAt sampleFlat i →
        ∃ a b par parent pre post,
          st.items[root + 1 + i]? = some a ∧ st.items[root + 1 + (i + 1)]? = some b ∧
          a.parent = some par ∧ b.parent = some par ∧ par ≠ root + 1 + i ∧
          st.items[par]? = some parent ∧
          parent.children = pre ++ (root + 1 + i) :: (root + 1 + (i + 1)) :: post) ∧
      ((∀ i, i < sampleFlat.length → levelAt sampleFlat i = levelAt sampleFlat 0) →
        ∃ rootItem, st.items[root]? = some rootItem ∧
          rootItem.children = (List.range sampleFlat.length).map (fun i => root + 1 + i) ∧
          ∀ i, i < sampleFlat.length →
            ∃ it, st.items[root + 1 + i]? = some it ∧ it.parent = some root ∧
              it.children = []) :=
  ⟨by decide, same_level_flattening [] 0 0 sampleFlat sampleFlat_levels⟩

/-- In a store that satisfies the loop invariant, the traversal from the
children of the root visits the created nodes in creation order. -/
theorem LoopInv.preorder_eq (base : Heap) (pc : Int) (c : Nat)
    (hs : List (HeadingKey × QWebElement)) (m : Nat) (st : BuildState)
    (hinv : LoopInv base pc c hs m st) (rootItem : OutlineItem)
    (hroot : st.items[base.length]? = some rootItem) (fuel : Nat) (hfuel : m ≤ fuel) :
    preorder st.items fuel rootItem.children =
      some ((List.range m).map (fun j => base.length + 1 + j)) := by
  have hch := LoopInv.children_eq base pc c hs m st hinv 0 rootItem hroot
  rw [hch, List.range_eq_range']
  have hcongr : (List.range' 0 m).filter
        (fun j => decide (parentPos st.items base.length j = 0)) =
      (List.range' 0 m).filter
        (fun j => decide (parentPos st.items base.length j ≤ 0)) := by
    apply List.filter_congr
    intro j _
    simp
  rw [hcongr]
  refine preorder_range st.items base.length m (levelAt hs)
    (parentPos st.items base.length) ?_ ?_ m 0 fuel (by omega) hfuel
  · intro i hi
    exact (LoopInv.parentAt_eq base pc c hs m st hinv i hi).2
  · intro k hk
    obtain ⟨it, h1, _, h3⟩ := LoopInv.node_get base pc c hs m st hinv k hk
    exact ⟨it, h1, h3⟩

theorem sampleSingle_levels :
    ∀ h, h ∈ sampleSingle → 1 ≤ h.2.tagNumber ∧ h.2.tagNumber ≤ 9 := by
  intro h hh
  simp only [sampleSingle, List.mem_singleton] at hh
  rw [hh]
  decide

/-- C15: no synthesized ancestors.  The call creates the root and one node per
heading and no other object; the nodes under the root are exactly these `n`
nodes; the first heading is the first child of the root, whatever its level;
and without headings the root has no child. -/
theorem no_synthesized_ancestors (items : Heap) (pc : Int) (c : Nat)
    (headings : List (HeadingKey × QWebElement))
    (hlevel : ∀ h, h ∈ headings → 1 ≤ h.2.tagNumber ∧ h.2.tagNumber ≤ 9) :
    ∃ st root rootItem, buildTree items pc c headings = some (st, root) ∧
      st.items[root]? = some rootItem ∧
      st.items.length = items.length + 1 + headings.length ∧
      preorder st.items headings.length rootItem.children =
        some ((List.range headings.length).map (fun i => root + 1 + i)) ∧
      (headings = [] → rootItem.children = []) ∧
      (∀ h rest, headings = h :: rest →
        ∃ it, st.items[root + 1]? = some it ∧ it.element = h.2 ∧ it.parent = some root ∧
          rootItem.children.head? = some (root + 1)) := by
  obtain ⟨st, h1, hinv⟩ := buildTree_inv items pc c headings
    (fun h hh => headingLevel_pos h.2 (hlevel h hh))
  obtain ⟨rootItem, hroot, _⟩ := hinv.root
  have hch := LoopInv.children_eq items pc c headings _ st hinv 0 rootItem hroot
  refine ⟨st, items.length, rootItem, h1, hroot, hinv.len,
    LoopInv.preorder_eq items pc c headings _ st hinv rootItem hroot _ (Nat.le_refl _), ?_, ?_⟩
  · intro hnil
    rw [hch, hnil]
    rfl
  · intro h rest hcons
    have hpos : 0 < headings.length := by rw [hcons]; simp
    obtain ⟨it, h2, h3, _⟩ := LoopInv.node_get items pc c headings _ st hinv 0 hpos
    obtain ⟨it2, hd, h4, h5, _, _, h6, _⟩ := hinv.node 0 hpos
    have hzero := LoopInv.parentPos_le items pc c headings _ st hinv 0 hpos
    have hz : parentPos st.items items.length 0 = 0 := by omega
    rw [h2] at h4
    cases h4
    refine ⟨it, h2, ?_, by rw [h3, hz]; rfl, ?_⟩
    · rw [h6]
      rw [hcons] at h5
      simp only [List.getElem?_cons_zero, Option.some.injEq] at h5
      rw [h5]
    · rw [hch]
      obtain ⟨k, hk⟩ : ∃ k, headings.length = k + 1 := ⟨headings.length - 1, by omega⟩
      rw [hk, List.range_succ_eq_map, List.filter_cons]
      simp [hz]

/-- Witness of C15: a single heading at level 7 gives a root with exactly one
child, which has no children. -/
theorem no_synthesized_ancestors_witness :
    (buildTree [] 0 0 sampleSingle).map
        (fun r => r.1.items.map (fun it => (it.value, it.parent, it.children))) =
      some [("", none, [1]), ("deep", some 0, [])] ∧
    ∃ st root rootItem, buildTree [] 0 0 sampleSingle = some (st, root) ∧
      st.items[root]? = some rootItem ∧
      st.items.length = ([] : Heap).length + 1 + sampleSingle.length ∧
      preorder st.items sampleSingle.length rootItem.children =
        some ((List.range sampleSingle.length).map (fun i => root + 1 + i)) ∧
      (sampleSingle = [] → rootItem.children = []) ∧
      (∀ h rest, sampleSingle = h :: rest →
        ∃ it, st.items[root + 1]? = some it ∧ it.element = h.2 ∧ it.parent = some root ∧
          rootItem.children.head? = some (root + 1)) :=
  ⟨by decide, no_synthesized_ancestors [] 0 0 sampleSingle sampleSingle_levels⟩

theorem children_count (r m q i : Nat) (P : Nat → Nat) (hi : i < m) :
    (((List.range m).filter (fun j => decide (P j = q))).map (fun j => r + 1 + j)).count
      (r + 1 + i) = if P i = q then 1 else 0 := by
  have hnd : (((List.range m).filter (fun j => decide (P j = q))).map
      (fun j => r + 1 + j)).Nodup :=
    List.Nodup.map (fun a b hab => by
        have h2 : r + 1 + a = r + 1 + b := hab
        omega)
      (List.Nodup.filter _ (List.nodup_range m))
  by_cases hq : P i = q
  · simp only [hq, if_true]
    apply List.count_eq_one_of_mem hnd
    exact List.mem_map.mpr ⟨i, List.mem_filter.mpr ⟨List.mem_range.mpr hi, by simp [hq]⟩, rfl⟩
  · simp only [hq, if_false]
    apply List.count_eq_zero_of_not_mem
    intro hmem
    obtain ⟨j, hj, hji⟩ := List.mem_map.mp hmem
    have : j = i := by omega
    subst this
    have := (List.mem_filter.mp hj).2
    simp only [decide_eq_true_eq] at this
    exact hq this

theorem children_ascending (r m q : Nat) (P : Nat → Nat) :
    (((List.range m).filter (fun j => decide (P j = q))).map
      (fun j => r + 1 + j)).Pairwise (fun a b => a < b) := by
  rw [List.pairwise_map]
  refine List.Pairwise.imp ?_ (List.Pairwise.filter _ (List.pairwise_lt_range m))
  intro a b hab
  omega

/-- C18: tree well-formedness.  Every created node has a parent among the
older objects of the new tree, it occurs once in the child list of that
parent and in no other child list of the tree, and every child list of the
tree is in ascending pointer order, which is the input order of the
headings. -/
theorem tree_well_formed (items : Heap) (pc : Int) (c : Nat)
    (headings : List (HeadingKey × QWebElement))
    (hlevel : ∀ h, h ∈ headings → 1 ≤ h.2.tagNumber ∧ h.2.tagNumber ≤ 9) :
    ∃ st root, buildTree items pc c headings = some (st, root) ∧
      (∀ i, i < headings.length →
        ∃ it par, st.items[root + 1 + i]? = some it ∧ it.parent = some par ∧
          root ≤ par ∧ par < root + 1 + i ∧
          ∀ p node, root ≤ p → st.items[p]? = some node →
            node.children.count (root + 1 + i) = if p = par then 1 else 0) ∧
      (∀ p node, root ≤ p → st.items[p]? = some node →
        node.children.Pairwise (fun a b => a < b) ∧
          ∀ q, q ∈ node.children → p < q ∧ q ≤ root + headings.length) := by
  obtain ⟨st, h1, hinv⟩ := buildTree_inv items pc c headings
    (fun h hh => headingLevel_pos h.2 (hlevel h hh))
  have hkids : ∀ p node, items.length ≤ p → st.items[p]? = some node →
      node.children = ((List.range headings.length).filter
        (fun j => decide (parentPos st.items items.length j = p - items.length))).map
          (fun j => items.length + 1 + j) := by
    intro p node hp hnode
    refine LoopInv.children_eq items pc c headings _ st hinv (p - items.length) node ?_
    rw [← hnode]
    congr 1
    omega
  refine ⟨st, items.length, h1, ?_, ?_⟩
  · intro i hi
    obtain ⟨it, h2, h3, _⟩ := LoopInv.node_get items pc c headings _ st hinv i hi
    have hle := LoopInv.parentPos_le items pc c headings _ st hinv i hi
    refine ⟨it, _, h2, h3, by omega, by omega, ?_⟩
    intro p node hp hnode
    rw [hkids p node hp hnode, children_count items.length headings.length _ i _ hi]
    by_cases hq : parentPos st.items items.length i = p - items.length
    · have : p = items.length + parentPos st.items items.length i := by omega
      rw [if_pos hq, if_pos this]
    · have : ¬ p = items.length + parentPos st.items items.length i := by omega
      rw [if_neg hq, if_neg this]
  · intro p node hp hnode
    rw [hkids p node hp hnode]
    refine ⟨children_ascending items.length headings.length _ _, ?_⟩
    intro q hq
    obtain ⟨j, hj, hjq⟩ := List.mem_map.mp hq
    obtain ⟨hj1, hj2⟩ := List.mem_filter.mp hj
    have hjn := List.mem_range.mp hj1
    simp only [decide_eq_true_eq] at hj2
    have hle := LoopInv.parentPos_le items pc c headings _ st hinv j hjn
    omega

/-- Witness of C18 on the levels `[1,2,3,2,1]`. -/
theorem tree_well_formed_witness :
    ∃ st root, buildTree [] 0 0 sampleHeadings = some (st, root) ∧
      (∀ i, i < sampleHeadings.length →
        ∃ it par, st.items[root + 1 + i]? = some it ∧ it.parent = some par ∧
          root ≤ par ∧ par < root + 1 + i ∧
          ∀ p node, root ≤ p → st.items[p]? = some node →
            node.children.count (root + 1 + i) = if p = par then 1 else 0) ∧
      (∀ p node, root ≤ p → st.items[p]? = some node →
        node.children.Pairwise (fun a b => a < b) ∧
          ∀ q, q ∈ node.children → p < q ∧ q ≤ root + sampleHeadings.length) :=
  tree_well_formed [] 0 0 sampleHeadings sampleHeadings_levels

theorem buildTree_eq (items : Heap) (pc : Int) (c : Nat)
    (headings : List (HeadingKey × QWebElement)) :
    buildTree items pc c headings =
      (buildLoop pc (loopStart items c) headings).map (fun st => (st, items.length)) := by
  simp only [buildTree, loopStart]
  cases buildLoop pc _ headings <;> rfl

theorem buildLoop_append (pc : Int) :
    ∀ (a b : List (HeadingKey × QWebElement)) (st : BuildState),
      buildLoop pc st (a ++ b) = (buildLoop pc st a).bind (fun st2 => buildLoop pc st2 b)
  | [], _, _ => rfl
  | (key, e) :: a, b, st => by
    simp only [List.cons_append, buildLoop]
    cases addHeading pc st key e with
    | none => rfl
    | some st2 => exact buildLoop_append pc a b st2

/-- The loop invariant holds after every iteration: the state after the first
`m` headings exists, satisfies the invariant at `m`, and is the state from
which the loop goes on with the remaining headings. -/
theorem buildLoop_take_inv (base : Heap) (pc : Int) (c : Nat)
    (hs : List (HeadingKey × QWebElement))
    (hlevel : ∀ h, h ∈ hs → 1 ≤ headingLevel h.2) :
    ∀ m, m ≤ hs.length →
      ∃ st, buildLoop pc (loopStart base c) (hs.take m) = some st ∧
        buildLoop pc (loopStart base c) hs = buildLoop pc st (hs.drop m) ∧
        LoopInv base pc c hs m st
  | 0, _ => ⟨loopStart base c, rfl, rfl, LoopInv.init base pc c hs⟩
  | m + 1, hm => by
    obtain ⟨st, h1, _, hinv⟩ := buildLoop_take_inv base pc c hs hlevel m (by omega)
    obtain ⟨⟨key, e⟩, hget⟩ : ∃ h, hs[m]? = some h :=
      ⟨hs[m], List.getElem?_eq_getElem (by omega)⟩
    obtain ⟨st2, h3, hinv2⟩ := addHeading_inv base pc c hs m st key e hinv hget
      (hlevel _ (List.getElem?_mem hget))
    have htake : buildLoop pc (loopStart base c) (hs.take (m + 1)) = some st2 := by
      rw [List.take_succ, buildLoop_append, h1, hget]
      simp only [Option.toList, Option.bind_eq_bind, Option.some_bind, buildLoop, h3]
    refine ⟨st2, htake, ?_, hinv2⟩
    conv_lhs => rw [← List.take_append_drop (m + 1) hs]
    rw [buildLoop_append, htake]
    rfl

theorem ChainOK.getLast (lv : Nat → Nat) (root : Nat) (items : Heap) :
    ∀ (stack : List Nat) (old : Option Nat), ChainOK lv root items stack old →
      stack.getLast? = some 0
  | [], _, hc => by simp [ChainOK] at hc
  | [l], _, hc => by
    obtain ⟨hl, _⟩ := hc
    rw [hl]
    rfl
  | l :: l2 :: rest, _, hc => by
    obtain ⟨i, par, _, _, _, _, hrest⟩ := hc
    rw [List.getLast?_cons_cons]
    exact ChainOK.getLast lv root items (l2 :: rest) par hrest

theorem ChainOK.length_le (lv : Nat → Nat) (root : Nat) (items : Heap) :
    ∀ (stack : List Nat) (old : Option Nat), ChainOK lv root items stack old →
      ∃ q, old = some q ∧ root ≤ q ∧ stack.length ≤ q - root + 1
  | [], _, hc => by simp [ChainOK] at hc
  | [l], _, hc => by
    obtain ⟨_, ho⟩ := hc
    exact ⟨root, ho, Nat.le_refl _, by simp⟩
  | l :: l2 :: rest, _, hc => by
    obtain ⟨i, par, ho, _, _, hlt, hrest⟩ := hc
    obtain ⟨q, hq, hrq, hlen⟩ := ChainOK.length_le lv root items (l2 :: rest) par hrest
    have := hlt q hq
    refine ⟨root + 1 + i, ho, by omega, ?_⟩
    simp only [List.length_cons] at hlen ⊢
    omega

/-- The entries of the level stack decrease strictly from the top down to
the sentinel. -/
theorem ChainOK.decreasing (lv : Nat → Nat) (root : Nat) (items : Heap)
    (hns : ∀ i par, parentAt items (root + 1 + i) = some par →
      NearestSmaller lv root i par ∧ 1 ≤ lv i) :
    ∀ (stack : List Nat) (old : Option Nat), ChainOK lv root items stack old →
      stack.Chain' (fun a b => a > b)
  | [], _, hc => by simp [ChainOK] at hc
  | [l], _, _ => List.chain'_singleton l
  | l :: l2 :: rest, _, hc => by
    obtain ⟨i, par, _, hl, hp, _, hrest⟩ := hc
    obtain ⟨h1, h2⟩ := hns i par hp
    refine List.Chain'.cons ?_ (ChainOK.decreasing lv root items hns (l2 :: rest) par hrest)
    cases rest with
    | nil =>
      obtain ⟨hz, _⟩ := hrest
      show l > l2
      omega
    | cons l3 rest2 =>
      obtain ⟨j, par2, hj, hlj, _⟩ := hrest
      show l > l2
      rcases h1 with ⟨h3, _⟩ | ⟨k, _, h3, h4, _⟩
      · rw [h3] at hj
        injection hj with hj
        omega
      · rw [h3] at hj
        injection hj with hj
        have : k = j := by omega
        subst this
        omega

theorem parentPath_none (items : Heap) (fuel : Nat) : parentPath items fuel none = [] := by
  cases fuel <;> rfl

/-- The level stack is the list of the levels of the objects on the parent
path from the cursor, which ends at the root. -/
theorem ChainOK.path (hs : List (HeadingKey × QWebElement)) (root : Nat) (items : Heap)
    (hroot : parentAt items root = some none) :
    ∀ (stack : List Nat) (old : Option Nat), ChainOK (levelAt hs) root items stack old →
      ∀ fuel, stack.length ≤ fuel →
        (parentPath items fuel old).map (nodeLevel hs root) = stack ∧
          (parentPath items fuel old).getLast? = some root
  | [], _, hc, _, _ => by simp [ChainOK] at hc
  | [l], _, hc, fuel, hf => by
    obtain ⟨hl, ho⟩ := hc
    obtain ⟨f, hfuel⟩ : ∃ f, fuel = f + 1 := ⟨fuel - 1, by simp at hf; omega⟩
    have hb : (items[root]?).bind (fun it => it.parent) = none := by
      simp only [parentAt] at hroot
      cases hit : items[root]? with
      | none => rfl
      | some it =>
        rw [hit] at hroot
        simpa using hroot
    rw [hfuel, ho, hl, parentPath, hb, parentPath_none]
    simp [nodeLevel]
  | l :: l2 :: rest, _, hc, fuel, hf => by
    obtain ⟨i, par, ho, hl, hp, _, hrest⟩ := hc
    obtain ⟨f, hfuel⟩ : ∃ f, fuel = f + 1 := ⟨fuel - 1, by simp at hf; omega⟩
    have hb : (items[root + 1 + i]?).bind (fun it => it.parent) = par := by
      simp only [parentAt] at hp
      cases hit : items[root + 1 + i]? with
      | none => rw [hit] at hp; cases hp
      | some it =>
        rw [hit] at hp
        simpa using hp
    obtain ⟨h1, h2⟩ := ChainOK.path hs root items hroot (l2 :: rest) par hrest f
      (by simp only [List.length_cons] at hf ⊢; omega)
    rw [hfuel, ho, parentPath, hb]
    have hne : parentPath items f par ≠ [] := by
      intro h
      rw [h] at h1
      cases h1
    obtain ⟨x, xs, hx⟩ := List.exists_cons_of_ne_nil hne
    refine ⟨?_, ?_⟩
    · rw [List.map_cons, h1]
      congr 1
      have h3 : ¬ root + 1 + i ≤ root := by omega
      have h4 : root + 1 + i - (root + 1) = i := by omega
      simp only [nodeLevel, h3, if_false, h4]
      exact hl
    · rw [hx, List.getLast?_cons_cons, ← hx]
      exact h2

theorem LoopInv.parent_facts (base : Heap) (pc : Int) (c : Nat)
    (hs : List (HeadingKey × QWebElement)) (m : Nat) (st : BuildState)
    (hinv : LoopInv base pc c hs m st) (hlevel : ∀ h, h ∈ hs → 1 ≤ headingLevel h.2) :
    ∀ i par, parentAt st.items (base.length + 1 + i) = some par →
      NearestSmaller (levelAt hs) base.length i par ∧ 1 ≤ levelAt hs i := by
  intro i par hp
  have hi : i < m := by
    rcases Nat.lt_or_ge i m with h | h
    · exact h
    · have hlen := hinv.len
      simp only [parentAt] at hp
      rw [List.getElem?_eq_none (by omega)] at hp
      cases hp
  obtain ⟨it, h, h1, h2, _, _, _, _, h7⟩ := hinv.node i hi
  simp only [parentAt, h1, Option.map_some', Option.some.injEq] at hp
  rw [← hp]
  refine ⟨h7, ?_⟩
  rw [levelAt_eq hs i h h2]
  exact hlevel h (List.getElem?_mem h2)

theorem LoopInv.root_parent (base : Heap) (pc : Int) (c : Nat)
    (hs : List (HeadingKey × QWebElement)) (m : Nat) (st : BuildState)
    (hinv : LoopInv base pc c hs m st) : parentAt st.items base.length = some none := by
  obtain ⟨it, h1, h2, _⟩ := hinv.root
  simp [parentAt, h1, h2]

theorem headingLevels_pos (headings : List (HeadingKey × QWebElement))
    (hlevel : ∀ h, h ∈ headings → 1 ≤ h.2.tagNumber ∧ h.2.tagNumber ≤ 9) :
    ∀ h, h ∈ headings → 1 ≤ headingLevel h.2 :=
  fun h hh => headingLevel_pos h.2 (hlevel h hh)

/-- C16: the tree builder cannot fail.  For levels in 1..9 the loop returns,
that is, it never reads the top of an empty level stack and never follows a
null pointer; after every iteration the bottom of the level stack is the
sentinel 0, after every heading the stack is the heading's level on top of
the stack the pop loop left, which still ends with the sentinel, and the
cursor `old` points to an object of the store. -/
theorem builder_cannot_fail (items : Heap) (pc : Int) (c : Nat)
    (headings : List (HeadingKey × QWebElement))
    (hlevel : ∀ h, h ∈ headings → 1 ≤ h.2.tagNumber ∧ h.2.tagNumber ≤ 9) :
    (∃ st root, buildTree items pc c headings = some (st, root)) ∧
    ∀ m, m ≤ headings.length →
      ∃ st, buildLoop pc (loopStart items c) (headings.take m) = some st ∧
        buildLoop pc (loopStart items c) headings = buildLoop pc st (headings.drop m) ∧
        st.levelStack.getLast? = some 0 ∧
        (1 ≤ m → ∃ level popped, st.levelStack = level :: popped ∧ 1 ≤ level ∧
          popped.getLast? = some 0) ∧
        ∃ p it, st.old = some p ∧ st.items[p]? = some it := by
  have hpos := headingLevels_pos headings hlevel
  constructor
  · obtain ⟨st, h1, _⟩ := buildTree_inv items pc c headings hpos
    exact ⟨st, items.length, h1⟩
  · intro m hm
    obtain ⟨st, h1, h2, hinv⟩ := buildLoop_take_inv items pc c headings hpos m hm
    refine ⟨st, h1, h2, ChainOK.getLast _ _ _ _ _ hinv.chain, ?_, ?_⟩
    · intro hm1
      have hchain := hinv.chain
      have htop := hinv.top
      cases hst : st.levelStack with
      | nil => rw [hst] at hchain; simp [ChainOK] at hchain
      | cons l rest =>
        rw [hst] at hchain
        cases rest with
        | nil =>
          obtain ⟨_, ho⟩ := hchain
          rw [htop] at ho
          injection ho with ho
          omega
        | cons l2 rest2 =>
          obtain ⟨i, par, _, hl, hp, _, hrest⟩ := hchain
          have := (LoopInv.parent_facts items pc c headings m st hinv hpos i par hp).2
          exact ⟨l, l2 :: rest2, rfl, by omega, ChainOK.getLast _ _ _ _ _ hrest⟩
    · have hlen := hinv.len
      have hlt : items.length + m < st.items.length := by omega
      exact ⟨items.length + m, st.items[items.length + m], hinv.top,
        List.getElem?_eq_getElem hlt⟩

/-- Witness of C16 on the levels `[1,2,3,2,1]`; a heading of level 0, which
`findAllElements` cannot deliver, would pop the sentinel and fail. -/
theorem builder_cannot_fail_witness :
    buildTree [] 0 0 sampleLevelZero = none ∧
    (buildLoop 0 (loopStart [] 0) sampleHeadings).map (fun st => (st.levelStack, st.old)) =
      some ([1, 0], some 5) ∧
    (∃ st root, buildTree [] 0 0 sampleHeadings = some (st, root)) ∧
    ∀ m, m ≤ sampleHeadings.length →
      ∃ st, buildLoop 0 (loopStart [] 0) (sampleHeadings.take m) = some st ∧
        buildLoop 0 (loopStart [] 0) sampleHeadings = buildLoop 0 st (sampleHeadings.drop m) ∧
        st.levelStack.getLast? = some 0 ∧
        (1 ≤ m → ∃ level popped, st.levelStack = level :: popped ∧ 1 ≤ level ∧
          popped.getLast? = some 0) ∧
        ∃ p it, st.old = some p ∧ st.items[p]? = some it :=
  ⟨by decide, by decide, builder_cannot_fail [] 0 0 sampleHeadings sampleHeadings_levels⟩

theorem parentPath_root (base : Heap) (pc : Int) (c : Nat)
    (hs : List (HeadingKey × QWebElement)) (m : Nat) (st : BuildState)
    (hinv : LoopInv base pc c hs m st) (fuel : Nat) (hf : 1 ≤ fuel) :
    parentPath st.items fuel (some base.length) = [base.length] := by
  obtain ⟨f, hfuel⟩ : ∃ f, fuel = f + 1 := ⟨fuel - 1, by omega⟩
  obtain ⟨it, h1, h2, _⟩ := hinv.root
  rw [hfuel, parentPath, h1]
  simp only [Option.some_bind, h2, parentPath_none]

/-- The number of objects on the parent path of a node, the node and the root
included, is at most the node's level plus one. -/
theorem LoopInv.depth_le (base : Heap) (pc : Int) (c : Nat)
    (hs : List (HeadingKey × QWebElement)) (m : Nat) (st : BuildState)
    (hinv : LoopInv base pc c hs m st) (hlevel : ∀ h, h ∈ hs → 1 ≤ headingLevel h.2) :
    ∀ i, i < m → ∀ fuel, i + 2 ≤ fuel →
      (parentPath st.items fuel (some (base.length + 1 + i))).getLast? = some base.length ∧
        (parentPath st.items fuel (some (base.length + 1 + i))).length ≤ levelAt hs i + 1 := by
  intro i
  induction i using Nat.strong_induction_on with
  | _ i ih =>
    intro hi fuel hf
    obtain ⟨f, hfuel⟩ : ∃ f, fuel = f + 1 := ⟨fuel - 1, by omega⟩
    obtain ⟨it, h1, h2, _⟩ := LoopInv.node_get base pc c hs m st hinv i hi
    obtain ⟨hp, hns⟩ := LoopInv.parentAt_eq base pc c hs m st hinv i hi
    have hpos := (LoopInv.parent_facts base pc c hs m st hinv hlevel i _ hp).2
    rw [hfuel, parentPath, h1]
    simp only [Option.some_bind, h2]
    rcases hns with ⟨h3, _⟩ | ⟨j, hj, h3, h4, _⟩
    · rw [h3]
      simp only [Nat.add_zero]
      rw [parentPath_root base pc c hs m st hinv f (by omega)]
      refine ⟨rfl, ?_⟩
      simp only [List.length_cons, List.length_nil]
      omega
    · have hptr : base.length + parentPos st.items base.length i = base.length + 1 + j := by
        omega
      rw [hptr]
      obtain ⟨h5, h6⟩ := ih j hj (by omega) f (by omega)
      have hne : parentPath st.items f (some (base.length + 1 + j)) ≠ [] := by
        intro h
        rw [h] at h5
        cases h5
      obtain ⟨x, xs, hx⟩ := List.exists_cons_of_ne_nil hne
      refine ⟨?_, ?_⟩
      · rw [hx, List.getLast?_cons_cons, ← hx]
        exact h5
      · simp only [List.length_cons]
        omega

/-- C20: the level-stack invariant.  After every iteration the level stack,
read from its bottom, starts with the sentinel 0 and increases strictly, and
it is the list of the levels of the objects on the parent path from the cursor
to the root.  In the built tree the level of every node is greater than the
level of its parent (0 for the root), the parent path of a node, the node and
the root included, has at most level + 1 objects, and the level is at most 9:
a node has at most 9 ancestors, the root included. -/
theorem level_stack_invariant (items : Heap) (pc : Int) (c : Nat)
    (headings : List (HeadingKey × QWebElement))
    (hlevel : ∀ h, h ∈ headings → 1 ≤ h.2.tagNumber ∧ h.2.tagNumber ≤ 9) :
    (∀ m, m ≤ headings.length →
      ∃ st, buildLoop pc (loopStart items c) (headings.take m) = some st ∧
        buildLoop pc (loopStart items c) headings = buildLoop pc st (headings.drop m) ∧
        st.levelStack.reverse.head? = some 0 ∧
        st.levelStack.reverse.Pairwise (fun a b => a < b) ∧
        (parentPath st.items (m + 1) st.old).map (nodeLevel headings items.length) =
          st.levelStack ∧
        (parentPath st.items (m + 1) st.old).getLast? = some items.length) ∧
    ∃ st root, buildTree items pc c headings = some (st, root) ∧
      ∀ i, i < headings.length →
        ∃ it par, st.items[root + 1 + i]? = some it ∧ it.parent = some par ∧
          nodeLevel headings root par < levelAt headings i ∧
          (parentPath st.items (headings.length + 1) (some (root + 1 + i))).getLast? =
            some root ∧
          (parentPath st.items (headings.length + 1) (some (root + 1 + i))).length ≤
            levelAt headings i + 1 ∧
          levelAt headings i ≤ 9 := by
  have hpos := headingLevels_pos headings hlevel
  constructor
  · intro m hm
    obtain ⟨st, h1, h2, hinv⟩ := buildLoop_take_inv items pc c headings hpos m hm
    have hchain := hinv.chain
    obtain ⟨q, hq, hrq, hlen⟩ := ChainOK.length_le _ _ _ _ _ hchain
    have hqm : q = items.length + m := by
      have := hinv.top
      rw [hq] at this
      injection this
    obtain ⟨h3, h4⟩ := ChainOK.path headings items.length st.items
      (LoopInv.root_parent items pc c headings m st hinv) _ _ hchain (m + 1) (by omega)
    refine ⟨st, h1, h2, ?_, ?_, h3, h4⟩
    · rw [List.head?_reverse]
      exact ChainOK.getLast _ _ _ _ _ hchain
    · rw [List.pairwise_reverse]
      exact List.chain'_iff_pairwise.mp (ChainOK.decreasing _ _ _
        (LoopInv.parent_facts items pc c headings m st hinv hpos) _ _ hchain)
  · obtain ⟨st, h1, hinv⟩ := buildTree_inv items pc c headings hpos
    refine ⟨st, items.length, h1, ?_⟩
    intro i hi
    obtain ⟨it, h2, h3, _⟩ := LoopInv.node_get items pc c headings _ st hinv i hi
    obtain ⟨hp, hns⟩ := LoopInv.parentAt_eq items pc c headings _ st hinv i hi
    have hlv1 := (LoopInv.parent_facts items pc c headings _ st hinv hpos i _ hp).2
    obtain ⟨h5, h6⟩ := LoopInv.depth_le items pc c headings _ st hinv hpos i hi
      (headings.length + 1) (by omega)
    refine ⟨it, _, h2, h3, ?_, h5, h6, ?_⟩
    · rcases hns with ⟨h7, _⟩ | ⟨j, hj, h7, h8, _⟩
      · rw [h7]
        simp only [nodeLevel, Nat.add_zero, Nat.le_refl, if_true]
        omega
      · rw [h7]
        have h9 : ¬ items.length + (j + 1) ≤ items.length := by omega
        have h10 : items.length + (j + 1) - (items.length + 1) = j := by omega
        simp only [nodeLevel, h9, if_false, h10]
        exact h8
    · obtain ⟨it2, h, _, h11, _⟩ := hinv.node i hi
      have hmem := List.getElem?_mem h11
      rw [levelAt_eq headings i h h11, headingLevel_eq h.2 (hlevel h hmem)]
      have := (hlevel h hmem).2
      omega

/-- Witness of C20 on the levels `[1,2,3,2,1]`: after the third heading the
stack is 0, 1, 2, 3 from the bottom. -/
theorem level_stack_invariant_witness :
    (buildLoop 0 (loopStart [] 0) (sampleHeadings.take 3)).map
        (fun st => (st.levelStack.reverse, parentPath st.items 4 st.old)) =
      some ([0, 1, 2, 3], [3, 2, 1, 0]) ∧
    (∀ m, m ≤ sampleHeadings.length →
      ∃ st, buildLoop 0 (loopStart [] 0) (sampleHeadings.take m) = some st ∧
        buildLoop 0 (loopStart [] 0) sampleHeadings = buildLoop 0 st (sampleHeadings.drop m) ∧
        st.levelStack.reverse.head? = some 0 ∧
        st.levelStack.reverse.Pairwise (fun a b => a < b) ∧
        (parentPath st.items (m + 1) st.old).map (nodeLevel sampleHeadings ([] : Heap).length) =
          st.levelStack ∧
        (parentPath st.items (m + 1) st.old).getLast? = some ([] : Heap).length) ∧
    ∃ st root, buildTree [] 0 0 sampleHeadings = some (st, root) ∧
      ∀ i, i < sampleHeadings.length →
        ∃ it par, st.items[root + 1 + i]? = some it ∧ it.parent = some par ∧
          nodeLevel sampleHeadings root par < levelAt sampleHeadings i ∧
          (parentPath st.items (sampleHeadings.length + 1) (some (root + 1 + i))).getLast? =
            some root ∧
          (parentPath st.items (sampleHeadings.length + 1) (some (root + 1 + i))).length ≤
            levelAt sampleHeadings i + 1 ∧
          levelAt sampleHeadings i ≤ 9 :=
  ⟨by decide, level_stack_invariant [] 0 0 sampleHeadings sampleHeadings_levels⟩

theorem value10_decimalCore :
    ∀ (fuel n : Nat) (ds : List Char), n < fuel →
      value10 0 (decimalCore fuel n ds) = value10 n ds
  | 0, n, _, h => absurd h (Nat.not_lt_zero n)
  | fuel + 1, n, ds, h => by
    have hd := digitValue36_digit36 (n % 10) (by have := Nat.mod_lt n (by decide : 0 < 10); omega)
    by_cases hq : n / 10 = 0
    · simp only [decimalCore, hq, if_true, value10, List.foldl_cons, hd]
      congr 1
      have := Nat.div_add_mod n 10
      omega
    · simp only [decimalCore, hq, if_false]
      rw [value10_decimalCore fuel (n / 10) _ (by omega)]
      simp only [value10, List.foldl_cons, hd]
      congr 1
      have := Nat.div_add_mod n 10
      omega

theorem decimalCore_head :
    ∀ (fuel n : Nat) (ds : List Char),
      ∃ d rest, d < 10 ∧ decimalCore (fuel + 1) n ds = digit36 d :: rest
  | 0, n, ds => by
    by_cases hq : n / 10 = 0
    · exact ⟨n % 10, ds, Nat.mod_lt n (by decide), by simp [decimalCore, hq]⟩
    · exact ⟨n % 10, ds, Nat.mod_lt n (by decide), by simp [decimalCore, hq]⟩
  | fuel + 1, n, ds => by
    by_cases hq : n / 10 = 0
    · exact ⟨n % 10, ds, Nat.mod_lt n (by decide), by simp [decimalCore, hq]⟩
    · obtain ⟨d, rest, hd, h⟩ := decimalCore_head fuel (n / 10) (digit36 (n % 10) :: ds)
      refine ⟨d, rest, hd, ?_⟩
      rw [decimalCore]
      simp only [hq, if_false]
      exact h

theorem digit36_ne_minus : ∀ d, d < 10 → digit36 d ≠ '-' := by
  decide

theorem decimalCore_injective (a b : Nat)
    (h : decimalCore (a + 1) a [] = decimalCore (b + 1) b []) : a = b := by
  have ha := value10_decimalCore (a + 1) a [] (Nat.lt_succ_self a)
  have hb := value10_decimalCore (b + 1) b [] (Nat.lt_succ_self b)
  rw [h, hb] at ha
  simpa [value10] using ha.symm

/-- Different numbers have different decimal renderings. -/
theorem number10_injective (a b : Int) (h : number10 a = number10 b) : a = b := by
  unfold number10 at h
  by_cases ha : a < 0 <;> by_cases hb : b < 0
  · simp only [ha, hb, if_true] at h
    have h2 := congrArg String.data h
    simp only [List.cons.injEq, true_and] at h2
    have := decimalCore_injective _ _ h2
    omega
  · simp only [ha, hb, if_true, if_false] at h
    have h2 := congrArg String.data h
    obtain ⟨d, rest, hd, h3⟩ := decimalCore_head b.natAbs b.natAbs []
    simp only [h3, List.cons.injEq] at h2
    exact absurd h2.1.symm (digit36_ne_minus d hd)
  · simp only [ha, hb, if_true, if_false] at h
    have h2 := congrArg String.data h
    obtain ⟨d, rest, hd, h3⟩ := decimalCore_head a.natAbs a.natAbs []
    simp only [h3, List.cons.injEq] at h2
    exact absurd h2.1 (digit36_ne_minus d hd)
  · simp only [ha, hb, if_false] at h
    have h2 := congrArg String.data h
    have := decimalCore_injective _ _ h2
    omega

theorem lookup_filter_ne (key k : String) (hk : k ≠ key) :
    ∀ (l : ParmMap), (l.filter (fun entry => decide (entry.1 ≠ key))).lookup k = l.lookup k
  | [] => rfl
  | (a, v) :: l => by
    by_cases ha : a = key
    · have hka : (k == a) = false := by rw [ha]; simpa using hk
      simp only [List.filter_cons, ha, ne_eq, not_true_eq_false, decide_False,
        Bool.false_eq_true, if_false, List.lookup_cons]
      rw [lookup_filter_ne key k hk l]
      rw [← ha, hka]
    · simp only [List.filter_cons, ne_eq, ha, not_false_eq_true, decide_True, if_true,
        List.lookup_cons]
      rw [lookup_filter_ne key k hk l]

theorem lookup_assign (parms : ParmMap) (key value k : String) :
    (parms.assign key value).lookup k = if k = key then some value else parms.lookup k := by
  by_cases hk : k = key
  · simp [ParmMap.assign, List.lookup_cons, hk]
  · simp only [ParmMap.assign, List.lookup_cons, hk, if_false]
    have : (k == key) = false := by simpa using hk
    rw [this]
    exact lookup_filter_ne key k hk parms

theorem wrapInt_of_range (x : Int) (h : InIntRange x) : wrapInt x = x := by
  obtain ⟨h1, h2⟩ := h
  unfold wrapInt
  omega

theorem wrapInt_add_left (x y : Int) : wrapInt (wrapInt x + y) = wrapInt (x + y) := by
  unfold wrapInt
  omega

/-- C5 (the code departs from it): the constructor leaves `pageCount`
indeterminate, so on a newly constructed collection the page numbers are
offset by whatever value `g` the field held.  After document A with 3 pages
and document B with 2 pages `pageCount()` is `g + 5` in `int`; with the value
`-1414812757` the headings of B, on page 0 of B, get the page `-1414812754`
and not 3, and `pageCount()` returns `-1414812752` and not 5.  Only when the
field happens to hold 0 do the calls give the pages 3 and the count 5. -/
theorem page_offsets_uninitialised :
    (∀ (settings : Settings) (g : Int) (a : Nat),
      ((Outline.construct [] settings g a).addWebPages sampleDocs).map
          (fun o2 => o2.pageCount) =
        some (wrapInt (wrapInt (g + 3) + 2))) ∧
    ((Outline.construct [] ⟨true, 1, 0⟩ (-1414812757) 0).addWebPages sampleDocs).map
        (fun o2 => (o2.items.map (fun it => it.page), o2.pageCount)) =
      some ([0, -1414812756, -1414812756, -1414812756, -1414812756, -1414812756,
        0, -1414812754, -1414812754], -1414812752) ∧
    ((Outline.construct [] ⟨true, 1, 0⟩ 0 0).addWebPages sampleDocs).map
        (fun o2 => (o2.items.map (fun it => it.page), o2.pageCount)) =
      some ([0, 1, 1, 1, 1, 1, 0, 3, 3], 5) := by
  refine ⟨?_, by decide, by decide⟩
  intro settings g a
  obtain ⟨o2, created, h1, _, h3, _⟩ :=
    addWebPages_spec sampleDocs (Outline.construct [] settings g a) sampleDocs_levels
  rw [h1]
  simp only [Option.map_some', Outline.pageCount, h3, Option.some.injEq]
  rfl

theorem fillHeaderFooterParms_lookup (o : Outline) (page : Int) (parms : ParmMap) :
    (o.fillHeaderFooterParms page parms).lookup "frompage" =
      some (number10 o.d.settings.pageOffset) ∧
    (o.fillHeaderFooterParms page parms).lookup "topage" =
      some (number10 (wrapInt (wrapInt (o.d.settings.pageOffset + o.pageCount) - 1))) ∧
    (o.fillHeaderFooterParms page parms).lookup "page" =
      some (number10 (wrapInt (page + o.d.settings.pageOffset))) := by
  refine ⟨?_, ?_, ?_⟩
  · have e1 : ¬ "frompage" = "webpage" := by decide
    have e2 : ¬ "frompage" = "page" := by decide
    have e3 : ¬ "frompage" = "topage" := by decide
    simp only [Outline.fillHeaderFooterParms, lookup_assign, e1, e2, e3, if_false, if_true]
  · have e1 : ¬ "topage" = "webpage" := by decide
    have e2 : ¬ "topage" = "page" := by decide
    simp only [Outline.fillHeaderFooterParms, lookup_assign, Outline.pageCount, e1, e2,
      if_false, if_true]
  · have e1 : ¬ "page" = "webpage" := by decide
    simp only [Outline.fillHeaderFooterParms, lookup_assign, e1, if_false, if_true]

/-- C19, as stated, fails: with the page offset 2147483647, 3 pages and page 1
the sums leave the range of `int`.  The code stores `-2147483647` under
`topage`, not the decimal string of `pageOffset + pageCount - 1`, and
`-2147483648` under `page`; with `frompage = 2147483647` neither
`topage - frompage + 1 = pageCount` nor `frompage ≤ page` holds. -/
theorem fillHeaderFooterParms_overflow :
    sampleMaxOffset.fillHeaderFooterParms 1 [] =
      [("webpage", "foobar"), ("page", "-2147483648"), ("topage", "-2147483647"),
        ("frompage", "2147483647")] ∧
    (sampleMaxOffset.fillHeaderFooterParms 1 []).lookup "topage" ≠
      some (number10 (sampleMaxOffset.d.settings.pageOffset + sampleMaxOffset.pageCount - 1)) ∧
    (sampleMaxOffset.fillHeaderFooterParms 1 []).lookup "frompage" =
      some (number10 2147483647) ∧
    (sampleMaxOffset.fillHeaderFooterParms 1 []).lookup "topage" =
      some (number10 (-2147483647)) ∧
    (sampleMaxOffset.fillHeaderFooterParms 1 []).lookup "page" =
      some (number10 (-2147483648)) ∧
    ¬ ((-2147483647 : Int) - 2147483647 + 1 = sampleMaxOffset.pageCount) ∧
    (0 : Int) ≤ 1 ∧ (1 : Int) < sampleMaxOffset.pageCount ∧
    ¬ ((2147483647 : Int) ≤ -2147483648) := by
  decide

/-- C19, amended: for every page and every collection state,
`fillHeaderFooterParms` stores under `frompage` the decimal string of
`pageOffset`, under `topage` that of the `int` sum
`pageOffset + pageCount - 1` and under `page` that of the `int` sum
`page + pageOffset`.  When `pageOffset + pageCount - 1` and
`page + pageOffset` lie in the range of `int`, the stored strings render
these exact sums; hence the numbers `f`, `t`, `p` that the three stored
strings render satisfy `t - f + 1 = pageCount`, and `f ≤ p ≤ t` for a page
with `0 ≤ page < pageCount`. -/
theorem fillHeaderFooterParms_values (o : Outline) (page : Int) (parms : ParmMap) :
    (o.fillHeaderFooterParms page parms).lookup "frompage" =
      some (number10 o.d.settings.pageOffset) ∧
    (o.fillHeaderFooterParms page parms).lookup "topage" =
      some (number10 (wrapInt (wrapInt (o.d.settings.pageOffset + o.pageCount) - 1))) ∧
    (o.fillHeaderFooterParms page parms).lookup "page" =
      some (number10 (wrapInt (page + o.d.settings.pageOffset))) ∧
    (InIntRange (o.d.settings.pageOffset + o.pageCount - 1) →
      InIntRange (page + o.d.settings.pageOffset) →
      (o.fillHeaderFooterParms page parms).lookup "topage" =
        some (number10 (o.d.settings.pageOffset + o.pageCount - 1)) ∧
      (o.fillHeaderFooterParms page parms).lookup "page" =
        some (number10 (page + o.d.settings.pageOffset)) ∧
      ∀ f t p : Int,
        (o.fillHeaderFooterParms page parms).lookup "frompage" = some (number10 f) →
        (o.fillHeaderFooterParms page parms).lookup "topage" = some (number10 t) →
        (o.fillHeaderFooterParms page parms).lookup "page" = some (number10 p) →
        t - f + 1 = o.pageCount ∧ (0 ≤ page → page < o.pageCount → f ≤ p ∧ p ≤ t)) := by
  obtain ⟨h1, h2, h3⟩ := fillHeaderFooterParms_lookup o page parms
  refine ⟨h1, h2, h3, ?_⟩
  intro htop hpage
  have e2 : wrapInt (wrapInt (o.d.settings.pageOffset + o.pageCount) - 1) =
      o.d.settings.pageOffset + o.pageCount - 1 := by
    have := wrapInt_add_left (o.d.settings.pageOffset + o.pageCount) (-1)
    rw [show wrapInt (o.d.settings.pageOffset + o.pageCount) - 1 =
      wrapInt (o.d.settings.pageOffset + o.pageCount) + -1 from rfl, this]
    exact wrapInt_of_range _ htop
  have e3 := wrapInt_of_range _ hpage
  have h2b := h2
  have h3b := h3
  rw [e2] at h2b
  rw [e3] at h3b
  refine ⟨h2b, h3b, ?_⟩
  intro f t p hf ht hp
  rw [h1] at hf
  rw [h2b] at ht
  rw [h3b] at hp
  have ef := number10_injective _ _ (Option.some.inj hf)
  have et := number10_injective _ _ (Option.some.inj ht)
  have ep := number10_injective _ _ (Option.some.inj hp)
  constructor
  · omega
  · intro h0 hlt
    omega

/-- Witness of the amended C19: page 1 of a collection of 3 pages with the
page offset 10 gives `frompage` 10, `topage` 12 and `page` 11; the sums are
in the range of `int`. -/
theorem fillHeaderFooterParms_values_witness :
    sampleShifted.fillHeaderFooterParms 1 [("page", "old")] =
      [("webpage", "foobar"), ("page", "11"), ("topage", "12"), ("frompage", "10")] ∧
    InIntRange (sampleShifted.d.settings.pageOffset + sampleShifted.pageCount - 1) ∧
    InIntRange (1 + sampleShifted.d.settings.pageOffset) ∧
    (sampleShifted.fillHeaderFooterParms 1 []).lookup "frompage" =
      some (number10 sampleShifted.d.settings.pageOffset) ∧
    (sampleShifted.fillHeaderFooterParms 1 []).lookup "topage" =
      some (number10 (sampleShifted.d.settings.pageOffset + sampleShifted.pageCount - 1)) ∧
    (sampleShifted.fillHeaderFooterParms 1 []).lookup "page" =
      some (number10 (1 + sampleShifted.d.settings.pageOffset)) ∧
    ∀ f t p : Int,
      (sampleShifted.fillHeaderFooterParms 1 []).lookup "frompage" = some (number10 f) →
      (sampleShifted.fillHeaderFooterParms 1 []).lookup "topage" = some (number10 t) →
      (sampleShifted.fillHeaderFooterParms 1 []).lookup "page" = some (number10 p) →
      t - f + 1 = sampleShifted.pageCount ∧
        (0 ≤ (1 : Int) → 1 < sampleShifted.pageCount → f ≤ p ∧ p ≤ t) :=
  ⟨by decide, by unfold InIntRange; decide, by unfold InIntRange; decide,
    (fillHeaderFooterParms_values sampleShifted 1 []).1,
    ((fillHeaderFooterParms_values sampleShifted 1 []).2.2.2 (by unfold InIntRange; decide)
      (by unfold InIntRange; decide)).1,
    ((fillHeaderFooterParms_values sampleShifted 1 []).2.2.2 (by unfold InIntRange; decide)
      (by unfold InIntRange; decide)).2.1,
    ((fillHeaderFooterParms_values sampleShifted 1 []).2.2.2 (by unfold InIntRange; decide)
      (by unfold InIntRange; decide)).2.2⟩

end Wk
